import Mathlib

/-!
# Verification of the OpenPharmacophore retrospective-screening core

Shallow embedding of `openpharmacophore/screening/retrospective.py`
(class `RetrospectiveScreening`): the scoring dispatch, the score-record
store and the metrics engine (confusion matrix, AUC, ROC data,
enrichment data/factor).

Modelling conventions:
* Python floats are modelled as `ℚ` (the claims are about exact values
  produced by exact integer/float arithmetic on small counts).
* A numpy float division whose divisor is zero yields NaN/Inf with only a
  warning; we model such a result as `none : Option ℚ`.
* Exceptions are modelled with `Except ScrErr`.
* `np.argsort` (ascending) is modelled as the sort of the index list by
  `(score, index)` lexicographic order, i.e. the stable ascending argsort,
  which is what numpy's introsort computes on the small arrays used in the
  concrete evaluations here.
* The external aligner (`EmbedLib`, `transform_embeddings`) and the
  fingerprint similarity function are oracles: each input molecule carries
  the outcome the external code would produce for it.
-/

deriving instance DecidableEq for Except

/-- The scoring strategy chosen in `RetrospectiveScreening.__init__`:
`"SSD"` for a 3D pharmacophore, `"Similarity"` for a fingerprint. -/
inductive Metric where
  | ssd
  | similarity
deriving DecidableEq, Repr

/-- Outcome of the external alignment pipeline for one molecule inside
`_align_molecules`:
* `noMatch`: `MatchPharmacophoreToMol` returned `can_match = False`;
* `matchFailed`: `can_match = True` but `MatchPharmacophore` returned `failed`;
* `embedRaises`: `EmbedPharmacophore` raised an exception;
* `embedded ssds embs`: embedding succeeded, `transform_embeddings`
  returned the list `ssds` of SSD values, with embedding handles `embs`. -/
inductive AlignOutcome where
  | noMatch
  | matchFailed
  | embedRaises
  | embedded (ssds : List ℚ) (embs : List ℕ)
deriving DecidableEq, Repr

/-- An input molecule together with the oracle answers of the external
collaborators: `sim` is the fingerprint similarity the similarity strategy
would compute, `outcome` the alignment outcome for the SSD strategy. -/
structure MolIn where
  name : String
  sim : ℚ
  outcome : AlignOutcome
deriving DecidableEq, Repr

/-- The third field of a `MolScore` namedtuple: either the original rdkit
molecule or an embedded conformer (by handle). -/
inductive Payload where
  | mol (m : MolIn)
  | emb (e : ℕ)
deriving DecidableEq, Repr

/-- The `MolScore` namedtuple `(score, id, mol)` appended to
`self.molecules` by the scoring strategies. -/
structure MolScore where
  score : ℚ
  id : String
  payload : Payload
deriving DecidableEq, Repr

/-- The mutable state of a `RetrospectiveScreening` object (only the
fields the claims touch). `bioactivities` is `None` until
`from_bioactivity_data` runs. -/
structure Session where
  scoring_metric : Metric
  n_actives : ℕ
  n_inactives : ℕ
  bioactivities : Option (List ℕ)
  molecules : List MolScore
  n_molecules : ℕ
deriving DecidableEq, Repr

/-- `RetrospectiveScreening.__init__`: counters zeroed, `bioactivities = None`,
empty store. -/
def freshSession (m : Metric) : Session :=
  { scoring_metric := m
    n_actives := 0
    n_inactives := 0
    bioactivities := none
    molecules := []
    n_molecules := 0 }

/-- Python exceptions surfaced by the embedded code.  The constructors
`degenerateDataError` and `emptyScreeningError` are modelled from the spec
(§7 names `DegenerateDataError` and `EmptyScreeningError`); no class of
that name exists in `_private_tools/exceptions.py` and nothing in the
source raises them — they exist here only so that claims naming them can
be stated. -/
inductive ScrErr where
  | missingParameters
  | assertionError
  | typeError
  | indexError
  | valueError
  | zeroDivisionError
  | degenerateDataError
  | emptyScreeningError
deriving DecidableEq, Repr

/-- Numpy float division: `none` stands for the NaN/Inf produced (with a
runtime warning, not an exception) when the divisor is zero. -/
def ndiv (a b : ℚ) : Option ℚ :=
  if b = 0 then none else some (a / b)

/-- Multiplication of a possibly-NaN value by a scalar (NaN propagates). -/
def omul (o : Option ℚ) (c : ℚ) : Option ℚ :=
  o.map (fun v => v * c)

/-! ## The sort shared by AUC, the ROC data and the enrichment data

All three compute `indices = np.argsort(scores)[::-1]` and then read both
scores and labels through `indices`. -/

/-- Ascending `(value, index)` lexicographic order on positions of `s`:
the (unique) order realised by a stable ascending argsort. -/
def lexLe (s : List ℚ) (i j : ℕ) : Prop :=
  s.getD i 0 < s.getD j 0 ∨ (s.getD i 0 = s.getD j 0 ∧ i ≤ j)

instance (s : List ℚ) : DecidableRel (lexLe s) := fun i j => by
  unfold lexLe; infer_instance

/-- `np.argsort(s)` (ascending). -/
def argsortAsc (s : List ℚ) : List ℕ :=
  List.insertionSort (lexLe s) (List.range s.length)

/-- `np.argsort(s)[::-1]`: the index order every metric sweeps in. -/
def sortIndices (s : List ℚ) : List ℕ :=
  (argsortAsc s).reverse

/-- The score list `[x[0] for x in self.molecules]`. -/
def Session.scores (s : Session) : List ℚ :=
  s.molecules.map (·.score)

/-- The label list of a populated session (`getD` never hits its default:
every use is guarded by a `match` on `bioactivities`). -/
def Session.labels (s : Session) : List ℕ :=
  s.bioactivities.getD []

/-- `(scores, labels)` read through the descending sort:
`np.sort(scores)[::-1]` paired with `self.bioactivities[indices]`. -/
def sortedPairs (s : Session) : List (ℚ × ℕ) :=
  (sortIndices s.scores).map (fun i => (s.scores.getD i 0, s.labels.getD i 0))

/-- `self.bioactivities[indices]` alone. -/
def sortedLabels (s : Session) : List ℕ :=
  (sortIndices s.scores).map (fun i => s.labels.getD i 0)

/-! ## Confusion matrix -/

/-- A 2×2 confusion matrix `[[TP, FP], [FN, TN]]`. -/
structure CMatrix where
  tp : ℕ
  fp : ℕ
  fn : ℕ
  tn : ℕ
deriving DecidableEq, Repr

/-- Body of the `for ii, mol in enumerate(self.molecules)` loop of
`confusion_matrix`.  `self.bioactivities[ii]` raises `IndexError` when
`ii` is out of range; a label other than 0/1 falls through the whole
`elif` chain and counts nowhere. -/
def cmLoop (labels : List ℕ) (thr : ℚ) :
    List MolScore → ℕ → CMatrix → Except ScrErr CMatrix
  | [], _, acc => .ok acc
  | m :: rest, ii, acc =>
    match labels.get? ii with
    | none => .error .indexError
    | some b =>
      if b = 1 ∧ thr < m.score then
        cmLoop labels thr rest (ii + 1) { acc with tp := acc.tp + 1 }
      else if b = 1 ∧ m.score ≤ thr then
        cmLoop labels thr rest (ii + 1) { acc with fn := acc.fn + 1 }
      else if b = 0 ∧ thr < m.score then
        cmLoop labels thr rest (ii + 1) { acc with fp := acc.fp + 1 }
      else if b = 0 ∧ m.score ≤ thr then
        cmLoop labels thr rest (ii + 1) { acc with tn := acc.tn + 1 }
      else
        cmLoop labels thr rest (ii + 1) acc

/-- `RetrospectiveScreening.confusion_matrix(threshold)`.  The final
`assert np.sum(cf_matrix) == self.n_molecules` is modelled as an
`AssertionError` when it fails.  Note that an unpopulated session
(`bioactivities = None`) passes straight through: the loop body never
runs, so `None` is never subscripted. -/
def confusionMatrix (s : Session) (threshold : Option ℚ) : Except ScrErr CMatrix :=
  if s.scoring_metric = .similarity ∧ threshold = none then
    .error .missingParameters
  else
    let thr : ℚ := if s.scoring_metric = .ssd then 0 else threshold.getD 0
    let labels := s.bioactivities.getD []
    match cmLoop labels thr s.molecules 0 ⟨0, 0, 0, 0⟩ with
    | .error e => .error e
    | .ok m =>
      if m.tp + m.fp + m.fn + m.tn = s.n_molecules then .ok m
      else .error .assertionError

/-! ## AUC -/

/-- The inner helper `trapezoid_area(x1, x2, y1, y2)` of `AUC`. -/
def trapezoidArea (x1 x2 y1 y2 : ℚ) : ℚ :=
  |x1 - x2| * (|y1 + y2| / 2)

/-- The loop state of `AUC`: running FP/TP counts, the counts recorded at
the last score change, the accumulated area and `score_prev`. -/
structure AucState where
  fp : ℕ
  tp : ℕ
  fpPrev : ℕ
  tpPrev : ℕ
  area : ℚ
  scorePrev : ℚ
deriving DecidableEq, Repr

/-- One iteration of the `while i < labels.shape[0]` loop of `AUC`. -/
def aucStep (st : AucState) (p : ℚ × ℕ) : AucState :=
  let st1 :=
    if p.1 ≠ st.scorePrev then
      { st with
        area := st.area + trapezoidArea st.fp st.fpPrev st.tp st.tpPrev
        scorePrev := p.1
        fpPrev := st.fp
        tpPrev := st.tp }
    else st
  if p.2 = 1 then { st1 with tp := st1.tp + 1 } else { st1 with fp := st1.fp + 1 }

/-- Initial `AUC` loop state (`score_prev = -10000000`). -/
def aucInit : AucState := ⟨0, 0, 0, 0, 0, -10000000⟩

/-- `RetrospectiveScreening.AUC()`.  On an unpopulated session
`self.bioactivities[indices]` subscripts `None` (`TypeError`).  The final
division `area / (n_negatives * n_positives)` is a numpy division: with a
zero divisor it yields NaN, and the `assert area >= 0 and area <= 1`
then fails (NaN comparisons are false), i.e. `AssertionError`. -/
def AUC (s : Session) : Except ScrErr ℚ :=
  match s.bioactivities with
  | none => .error .typeError
  | some _ =>
    let F := (sortedPairs s).foldl aucStep aucInit
    let area := F.area +
      trapezoidArea (s.n_inactives : ℚ) (F.fpPrev : ℚ) (s.n_actives : ℚ) (F.tpPrev : ℚ)
    match ndiv area ((s.n_inactives : ℚ) * (s.n_actives : ℚ)) with
    | none => .error .assertionError
    | some a => if 0 ≤ a ∧ a ≤ 1 then .ok a else .error .assertionError

/-! ## ROC curve data -/

/-- Loop state of the point-collecting sweep in `ROC_plot`. -/
structure RocState where
  fp : ℕ
  tp : ℕ
  xs : List (Option ℚ)
  ys : List (Option ℚ)
  scorePrev : ℚ
deriving DecidableEq, Repr

/-- One iteration of the ROC sweep: on a score change append
`false_positives/n_negatives` and `true_positives/n_positives`
(numpy divisions, NaN on a zero divisor), then count the label. -/
def rocStep (nNeg nPos : ℕ) (st : RocState) (p : ℚ × ℕ) : RocState :=
  let st1 :=
    if p.1 ≠ st.scorePrev then
      { st with
        xs := st.xs ++ [ndiv (st.fp : ℚ) (nNeg : ℚ)]
        ys := st.ys ++ [ndiv (st.tp : ℚ) (nPos : ℚ)]
        scorePrev := p.1 }
    else st
  if p.2 = 1 then { st1 with tp := st1.tp + 1 } else { st1 with fp := st1.fp + 1 }

/-- The data series computed by `RetrospectiveScreening.ROC_plot` (the
plotting calls themselves are out of scope): the sweep plus the
unconditional final point appended after the loop. -/
def rocData (s : Session) : Except ScrErr (List (Option ℚ) × List (Option ℚ)) :=
  match s.bioactivities with
  | none => .error .typeError
  | some _ =>
    let F := (sortedPairs s).foldl (rocStep s.n_inactives s.n_actives)
      ⟨0, 0, [], [], -10000000⟩
    .ok (F.xs ++ [ndiv (F.fp : ℚ) (s.n_inactives : ℚ)],
         F.ys ++ [ndiv (F.tp : ℚ) (s.n_actives : ℚ)])

/-! ## Enrichment data and enrichment factor -/

/-- The `for ii in range(n_molecules)` loop of `_enrichment_data`,
recursing over the sorted label list while carrying the loop index `ii`
and `actives_counter`.  Appends `actives_counter / n_actives` (a numpy
division: NaN when `n_actives = 0`) and `ii / n_molecules` (a Python
`int / int` division; the loop only runs when `n > 0`). -/
def enrichAux (nA n : ℕ) : List ℕ → ℕ → ℕ → List ℚ × List (Option ℚ)
  | [], _, _ => ([], [])
  | b :: rest, ii, counter =>
    let c' := if b = 1 then counter + 1 else counter
    let (scr, act) := enrichAux nA n rest (ii + 1) c'
    ((ii : ℚ) / (n : ℚ) :: scr, ndiv (c' : ℚ) (nA : ℚ) :: act)

/-- `RetrospectiveScreening._enrichment_data()`: both result lists start
with the literal `0` appended before the loop. -/
def enrichmentData (s : Session) : Except ScrErr (List ℚ × List (Option ℚ)) :=
  match s.bioactivities with
  | none => .error .typeError
  | some _ =>
    let sortedBio := sortedLabels s
    let n := sortedBio.length
    let (scr, act) := enrichAux s.n_actives n sortedBio 0 0
    .ok (0 :: scr, some 0 :: act)

/-- `RetrospectiveScreening.enrichment_factor(percentage)`: range check,
then `screened_percentage[indices_screen_per]` (boolean-mask compress),
`np.argsort(...)[-1]` (an `IndexError` if the mask kept nothing), and the
selected actives-found fraction `× 100`. -/
def enrichmentFactor (s : Session) (p : ℚ) : Except ScrErr (Option ℚ) :=
  if p < 0 ∨ 100 < p then .error .valueError
  else
    match enrichmentData s with
    | .error e => .error e
    | .ok (scr, act) =>
      let filtered := scr.filter (fun x => x ≤ p / 100)
      match (argsortAsc filtered).getLast? with
      | none => .error .indexError
      | some i => .ok (omul (act.getD i none) 100)

/-! ## The scoring strategies and `from_bioactivity_data` -/

/-- `min(enumerate(SSDs), key=itemgetter(1))[0]` starting from entry `i`
with current best index `best` of value `bv`: Python's `min` keeps the
first minimal element. -/
def minIdxAux : List ℚ → ℕ → ℕ → ℚ → ℕ
  | [], _, best, _ => best
  | x :: rest, i, best, bv =>
    if x < bv then minIdxAux rest (i + 1) i x else minIdxAux rest (i + 1) best bv

/-- `best_fit_index = min(enumerate(SSDs), key=itemgetter(1))[0]`. -/
def minIdx : List ℚ → ℕ
  | [] => 0
  | x :: rest => minIdxAux rest 1 0 x

/-- The per-molecule body of the `_align_molecules` loop:
* no match, or a failed match: sentinel record `(0.0, name, mol)`;
* the embedding step raises: `continue` with nothing appended (`ok none`);
* an empty SSD list: the same sentinel record;
* otherwise score `1 / SSDs[best]` with the best embedding as payload
  (`1 / 0.0` would be a `ZeroDivisionError` aborting the whole call). -/
def alignOne (m : MolIn) : Except ScrErr (Option MolScore) :=
  match m.outcome with
  | .noMatch => .ok (some ⟨0, m.name, .mol m⟩)
  | .matchFailed => .ok (some ⟨0, m.name, .mol m⟩)
  | .embedRaises => .ok none
  | .embedded ssds embs =>
    if ssds.isEmpty then .ok (some ⟨0, m.name, .mol m⟩)
    else
      let k := minIdx ssds
      let v := ssds.getD k 0
      if v = 0 then .error .zeroDivisionError
      else .ok (some ⟨1 / v, m.name, .emb (embs.getD k 0)⟩)

/-- The `for mol in tqdm(molecules)` loop of `_align_molecules`: collects
the records the loop appends, in input order, skipping molecules whose
embedding step raised; any other exception propagates. -/
def alignLoop : List MolIn → Except ScrErr (List MolScore)
  | [] => .ok []
  | m :: rest =>
    match alignOne m with
    | .error e => .error e
    | .ok none => alignLoop rest
    | .ok (some r) =>
      match alignLoop rest with
      | .error e => .error e
      | .ok rs => .ok (r :: rs)

/-- `RetrospectiveScreening._align_molecules(molecules)`:
`self.n_molecules += len(molecules)` before the loop, then one
`alignOne` per molecule in input order, appending the produced records. -/
def alignMolecules (s : Session) (mols : List MolIn) : Except ScrErr Session :=
  match alignLoop mols with
  | .error e => .error e
  | .ok recs =>
    .ok { s with
      n_molecules := s.n_molecules + mols.length
      molecules := s.molecules ++ recs }

/-- `RetrospectiveScreening._fingerprint_similarity(molecules)`:
`self.n_molecules = len(molecules)` (an overwrite, not an increment),
then one similarity record per molecule appended to the store. -/
def fingerprintSimilarity (s : Session) (mols : List MolIn) : Session :=
  { s with
    n_molecules := mols.length
    molecules := s.molecules ++ mols.map (fun m => ⟨m.sim, m.name, .mol m⟩) }

/-- `RetrospectiveScreening.from_bioactivity_data(smiles, activity)` with
`activity` already rank-1 (a plain list): the length check, the
overwrites of `n_actives`, `n_inactives` and `bioactivities`, then the
dispatch on `scoring_metric`. -/
def fromBioactivityData (s : Session) (mols : List MolIn) (activity : List ℕ) :
    Except ScrErr Session :=
  if mols.length ≠ activity.length then .error .valueError
  else
    let s1 := { s with
      n_actives := activity.sum
      n_inactives := activity.length - activity.sum
      bioactivities := some activity }
    match s.scoring_metric with
    | .similarity => .ok (fingerprintSimilarity s1 mols)
    | .ssd => alignMolecules s1 mols

/-! ## Well-formedness of a populated session

The pairing invariant of §3: one 0/1 label per stored record, counters
derived from the label array.  Every single-call population with no
skipped molecule establishes this. -/

/-- A populated, consistently paired session. -/
def WellFormed (s : Session) : Prop :=
  s.bioactivities ≠ none ∧
  s.labels.length = s.molecules.length ∧
  (∀ x ∈ s.labels, x = 0 ∨ x = 1) ∧
  s.n_actives = s.labels.sum ∧
  s.n_inactives = s.labels.length - s.labels.sum ∧
  s.n_molecules = s.molecules.length

instance (s : Session) : Decidable (WellFormed s) := by
  unfold WellFormed; infer_instance

/-- Specification counts for the confusion matrix: molecule `i` counts as
a (true/false) positive iff its score strictly exceeds the threshold. -/
def cmSpec (s : Session) (thr : ℚ) : CMatrix :=
  ⟨(s.molecules.zip s.labels).countP (fun p => decide (p.2 = 1 ∧ thr < p.1.score)),
   (s.molecules.zip s.labels).countP (fun p => decide (p.2 = 0 ∧ thr < p.1.score)),
   (s.molecules.zip s.labels).countP (fun p => decide (p.2 = 1 ∧ p.1.score ≤ thr)),
   (s.molecules.zip s.labels).countP (fun p => decide (p.2 = 0 ∧ p.1.score ≤ thr))⟩

/-- Pure per-molecule record of `_align_molecules`: what the loop appends
for one molecule when no `ZeroDivisionError` occurs (`none` = skipped). -/
def alignRecord (m : MolIn) : Option MolScore :=
  match m.outcome with
  | .noMatch => some ⟨0, m.name, .mol m⟩
  | .matchFailed => some ⟨0, m.name, .mol m⟩
  | .embedRaises => none
  | .embedded ssds embs =>
    if ssds.isEmpty then some ⟨0, m.name, .mol m⟩
    else some ⟨1 / ssds.getD (minIdx ssds) 0, m.name, .emb (embs.getD (minIdx ssds) 0)⟩

/-- Side condition ruling out `1 / 0.0` (`ZeroDivisionError`) for one
alignment outcome. -/
def outcomeOk (o : AlignOutcome) : Prop :=
  match o with
  | .embedded ssds _ => ssds = [] ∨ ssds.getD (minIdx ssds) 0 ≠ 0
  | _ => True

instance : DecidablePred outcomeOk := fun o =>
  match o with
  | .noMatch => .isTrue trivial
  | .matchFailed => .isTrue trivial
  | .embedRaises => .isTrue trivial
  | .embedded ssds _ =>
    inferInstanceAs (Decidable (ssds = [] ∨ ssds.getD (minIdx ssds) 0 ≠ 0))

/-- Modelled from the spec: the sort order claim C4 asserts — score
descending with ties broken by ORIGINAL input order (a stable descending
sort).  Compared below against `sortIndices`, the order the code computes. -/
def descStable (s : List ℚ) (i j : ℕ) : Prop :=
  s.getD j 0 < s.getD i 0 ∨ (s.getD i 0 = s.getD j 0 ∧ i ≤ j)

instance (s : List ℚ) : DecidableRel (descStable s) := fun i j => by
  unfold descStable
  infer_instance

/-- The stable descending argsort the claim describes. -/
def stableDescIndices (s : List ℚ) : List ℕ :=
  List.insertionSort (descStable s) (List.range s.length)

/-- A similarity-strategy input molecule with a given similarity score. -/
def simMol (nm : String) (q : ℚ) : MolIn :=
  ⟨nm, q, .noMatch⟩

/-- Session populated with a single active molecule (score 5, label 1):
n_inactives = 0, a degenerate label set. -/
def sesOneActive : Session :=
  ((fromBioactivityData (freshSession .similarity) [simMol "a" 5] [1]).toOption).getD
    (freshSession .similarity)

/-- Session with a perfect ranking: scores [2, 1], labels [1, 0]. -/
def sesPerfect : Session :=
  ((fromBioactivityData (freshSession .similarity)
      [simMol "a" 2, simMol "b" 1] [1, 0]).toOption).getD
    (freshSession .similarity)

/-- SSD session whose single (active) molecule raised during the
embedding step and was silently skipped. -/
def sesSkip : Session :=
  ((fromBioactivityData (freshSession .ssd) [⟨"m", 0, .embedRaises⟩] [1]).toOption).getD
    (freshSession .ssd)

/-- One molecule per alignment outcome, for exercising `_align_molecules`. -/
def wAlignMols : List MolIn :=
  [⟨"n", 0, .noMatch⟩, ⟨"f", 0, .matchFailed⟩, ⟨"e", 0, .embedRaises⟩,
   ⟨"s", 0, .embedded [4, 2] [10, 11]⟩, ⟨"z", 0, .embedded [] []⟩]

/-! ## Lemmas about the sort -/

theorem lexLe_total (s : List ℚ) : ∀ i j, lexLe s i j ∨ lexLe s j i := by
  intro i j
  rcases lt_trichotomy (s.getD i 0) (s.getD j 0) with h | h | h
  · exact Or.inl (Or.inl h)
  · rcases Nat.le_total i j with hij | hij
    · exact Or.inl (Or.inr ⟨h, hij⟩)
    · exact Or.inr (Or.inr ⟨h.symm, hij⟩)
  · exact Or.inr (Or.inl h)

theorem lexLe_trans (s : List ℚ) :
    ∀ i j k, lexLe s i j → lexLe s j k → lexLe s i k := by
  intro i j k hij hjk
  rcases hij with h1 | ⟨e1, l1⟩
  · rcases hjk with h2 | ⟨e2, _⟩
    · exact Or.inl (h1.trans h2)
    · exact Or.inl (e2 ▸ h1)
  · rcases hjk with h2 | ⟨e2, l2⟩
    · exact Or.inl (e1 ▸ h2)
    · exact Or.inr ⟨e1.trans e2, l1.trans l2⟩

theorem argsortAsc_sorted (s : List ℚ) : (argsortAsc s).Pairwise (lexLe s) := by
  haveI : IsTotal ℕ (lexLe s) := ⟨lexLe_total s⟩
  haveI : IsTrans ℕ (lexLe s) := ⟨fun _ _ _ => lexLe_trans s _ _ _⟩
  exact List.sorted_insertionSort (lexLe s) (List.range s.length)

theorem argsortAsc_perm (s : List ℚ) : (argsortAsc s).Perm (List.range s.length) :=
  List.perm_insertionSort (lexLe s) (List.range s.length)

theorem sortIndices_perm (s : List ℚ) : (sortIndices s).Perm (List.range s.length) :=
  ((argsortAsc s).reverse_perm).trans (argsortAsc_perm s)

theorem sortIndices_length (s : List ℚ) : (sortIndices s).length = s.length := by
  simpa using (sortIndices_perm s).length_eq

theorem sortIndices_sorted (s : List ℚ) :
    (sortIndices s).Pairwise (fun i j => lexLe s j i) :=
  (List.pairwise_reverse).mpr (argsortAsc_sorted s)

theorem sortIndices_nodup (s : List ℚ) : (sortIndices s).Nodup :=
  ((sortIndices_perm s).nodup_iff).mpr (List.nodup_range _)

theorem sortIndices_mem {s : List ℚ} {i : ℕ} (h : i ∈ sortIndices s) : i < s.length := by
  simpa using (sortIndices_perm s).mem_iff.mp h

/-- The index list every metric sweeps is descending in score, with tied
scores in reverse original order. -/
theorem sortIndices_desc (s : List ℚ) :
    (sortIndices s).Pairwise
      (fun i j => s.getD j 0 < s.getD i 0 ∨ (s.getD i 0 = s.getD j 0 ∧ j < i)) := by
  have h12 := (sortIndices_sorted s).and (sortIndices_nodup s)
  refine h12.imp ?_
  rintro i j ⟨hle, hne⟩
  rcases hle with h | ⟨he, hji⟩
  · exact Or.inl h
  · exact Or.inr ⟨he.symm, lt_of_le_of_ne hji (Ne.symm hne)⟩

/-- Reading a list back through `range` of its length. -/
theorem map_getD_range {α : Type} (l : List α) (d : α) :
    (List.range l.length).map (fun i => l.getD i d) = l := by
  induction l with
  | nil => rfl
  | cons a t ih =>
    have hr : List.range (a :: t).length = 0 :: (List.range t.length).map (· + 1) := by
      simp [List.range_succ_eq_map]
    rw [hr, List.map_cons, List.map_map]
    refine congrArg₂ _ (by simp) ?_
    have hf : ((fun i => (a :: t).getD i d) ∘ fun x => x + 1) = fun i => t.getD i d := by
      funext i
      exact List.getD_cons_succ
    rw [hf, ih]

/-- Reading two parallel lists back through `range` gives their zip. -/
theorem map_getD_range_zip (a : List ℚ) (b : List ℕ) (h : b.length = a.length) :
    (List.range a.length).map (fun i => (a.getD i 0, b.getD i 0)) = a.zip b := by
  induction a generalizing b with
  | nil => rfl
  | cons x a' ih =>
    cases b with
    | nil => simp at h
    | cons y b' =>
      have hlen : b'.length = a'.length := by simpa using h
      have hr : List.range (x :: a').length = 0 :: (List.range a'.length).map (· + 1) := by
        simp [List.range_succ_eq_map]
      rw [hr, List.map_cons, List.map_map, List.zip_cons_cons]
      refine congrArg₂ _ (by simp) ?_
      have hf : ((fun i => ((x :: a').getD i 0, (y :: b').getD i 0)) ∘ fun k => k + 1) =
          fun i => (a'.getD i 0, b'.getD i 0) := by
        funext i
        simp only [Function.comp]
        rw [List.getD_cons_succ, List.getD_cons_succ]
      rw [hf, ih b' hlen]

/-- The sorted (score, label) pair list is a permutation of the positional
pairing `zip scores labels`. -/
theorem sortedPairs_perm (s : Session) (h : s.labels.length = s.scores.length) :
    (sortedPairs s).Perm (s.scores.zip s.labels) := by
  unfold sortedPairs
  have hp := (sortIndices_perm s.scores).map
    (fun i => (s.scores.getD i 0, s.labels.getD i 0))
  exact hp.trans (by rw [map_getD_range_zip _ _ h])

theorem sortedLabels_eq_map_snd (s : Session) :
    sortedLabels s = (sortedPairs s).map (·.2) := by
  unfold sortedLabels sortedPairs
  simp [List.map_map, Function.comp]

theorem sortedLabels_perm (s : Session) (h : s.labels.length = s.scores.length) :
    (sortedLabels s).Perm s.labels := by
  rw [sortedLabels_eq_map_snd]
  refine ((sortedPairs_perm s h).map (·.2)).trans ?_
  have hz := List.map_snd_zip s.scores s.labels (le_of_eq h)
  simp only [hz]
  exact List.Perm.refl _

/-! ## Counting lemmas -/

/-- Number of active labels in a label list. -/
def countOnes (l : List ℕ) : ℕ :=
  l.countP (fun b => decide (b = 1))

/-- Number of active labels among (score, label) pairs. -/
def onesP (l : List (ℚ × ℕ)) : ℕ :=
  l.countP (fun p => decide (p.2 = 1))

/-- Number of non-active labels among (score, label) pairs (the `else`
branch of `if labels[i] == 1`). -/
def zerosP (l : List (ℚ × ℕ)) : ℕ :=
  l.countP (fun p => decide (¬ p.2 = 1))

theorem onesP_cons (p : ℚ × ℕ) (l : List (ℚ × ℕ)) :
    onesP (p :: l) = onesP l + if p.2 = 1 then 1 else 0 := by
  simp [onesP, List.countP_cons]

theorem zerosP_cons (p : ℚ × ℕ) (l : List (ℚ × ℕ)) :
    zerosP (p :: l) = zerosP l + if p.2 = 1 then 0 else 1 := by
  by_cases h : p.2 = 1 <;> simp [zerosP, List.countP_cons, h]

theorem onesP_append (l₁ l₂ : List (ℚ × ℕ)) :
    onesP (l₁ ++ l₂) = onesP l₁ + onesP l₂ := by
  simp [onesP, List.countP_append]

theorem onesP_add_zerosP (l : List (ℚ × ℕ)) : onesP l + zerosP l = l.length := by
  induction l with
  | nil => rfl
  | cons p t ih =>
    by_cases h : p.2 = 1 <;>
      simp [onesP_cons, zerosP_cons, h, ← ih] <;> omega

/-- On 0/1 labels, the numpy `np.sum(activity)` equals the number of 1s. -/
theorem countOnes_eq_sum (l : List ℕ) (h : ∀ x ∈ l, x = 0 ∨ x = 1) :
    countOnes l = l.sum := by
  induction l with
  | nil => rfl
  | cons b t ih =>
    have hb := h b (List.mem_cons_self b t)
    have ht := ih (fun x hx => h x (List.mem_cons_of_mem b hx))
    rcases hb with hb | hb <;>
      (subst hb
       simp [countOnes, List.countP_cons, List.sum_cons, ← ht, countOnes]
       try omega)

theorem countOnes_eq_onesP (s : Session) :
    countOnes (sortedLabels s) = onesP (sortedPairs s) := by
  rw [sortedLabels_eq_map_snd]
  simp only [countOnes, onesP, List.countP_map]
  exact List.countP_congr (fun p _ => Iff.rfl)

/-- Counting through the sort: the sorted pair list has as many active
labels as the label array. -/
theorem onesP_sortedPairs (s : Session) (h : s.labels.length = s.scores.length) :
    onesP (sortedPairs s) = countOnes s.labels := by
  unfold onesP
  rw [(sortedPairs_perm s h).countP_eq]
  have hz := List.map_snd_zip s.scores s.labels (le_of_eq h)
  calc (s.scores.zip s.labels).countP (fun p => decide (p.2 = 1))
      = ((s.scores.zip s.labels).map Prod.snd).countP (fun b => decide (b = 1)) := by
        rw [List.countP_map]; rfl
    _ = countOnes s.labels := by rw [hz]; rfl

theorem zerosP_sortedPairs (s : Session) (h : s.labels.length = s.scores.length) :
    zerosP (sortedPairs s) = s.labels.length - countOnes s.labels := by
  have h1 := onesP_add_zerosP (sortedPairs s)
  have h2 := onesP_sortedPairs s h
  have h3 : (sortedPairs s).length = s.labels.length := by
    unfold sortedPairs
    rw [List.length_map, sortIndices_length, h]
  omega

theorem countOnes_le_length (l : List ℕ) : countOnes l ≤ l.length :=
  List.countP_le_length _

/-! ## Trapezoid lemmas -/

theorem trapezoidArea_nonneg (x1 x2 y1 y2 : ℚ) : 0 ≤ trapezoidArea x1 x2 y1 y2 := by
  unfold trapezoidArea
  have h1 : (0:ℚ) ≤ |x1 - x2| := abs_nonneg _
  have h2 : (0:ℚ) ≤ |y1 + y2| := abs_nonneg _
  positivity

theorem trapezoidArea_zero_base (x y1 y2 : ℚ) : trapezoidArea x x y1 y2 = 0 := by
  simp [trapezoidArea]

theorem trapezoidArea_zero_height (x1 x2 : ℚ) : trapezoidArea x1 x2 0 0 = 0 := by
  simp [trapezoidArea]

theorem trapezoidArea_eq (a b c d : ℚ) (hba : b ≤ a) (hc : 0 ≤ c) (hd : 0 ≤ d) :
    trapezoidArea a b c d = (a - b) * ((c + d) / 2) := by
  unfold trapezoidArea
  rw [abs_of_nonneg (by linarith : (0:ℚ) ≤ a - b),
      abs_of_nonneg (by linarith : (0:ℚ) ≤ c + d)]

/-! ## AUC sweep invariants -/

/-- Explicit form of one sweep step when the score changes. -/
theorem aucStep_trigger (st : AucState) (p : ℚ × ℕ) (h : p.1 ≠ st.scorePrev) :
    aucStep st p =
      if p.2 = 1 then
        ⟨st.fp, st.tp + 1, st.fp, st.tp,
          st.area + trapezoidArea st.fp st.fpPrev st.tp st.tpPrev, p.1⟩
      else
        ⟨st.fp + 1, st.tp, st.fp, st.tp,
          st.area + trapezoidArea st.fp st.fpPrev st.tp st.tpPrev, p.1⟩ := by
  by_cases hl : p.2 = 1 <;> simp [aucStep, h, hl]

/-- Explicit form of one sweep step when the score repeats. -/
theorem aucStep_no_trigger (st : AucState) (p : ℚ × ℕ) (h : ¬ p.1 ≠ st.scorePrev) :
    aucStep st p =
      if p.2 = 1 then
        { st with tp := st.tp + 1 }
      else
        { st with fp := st.fp + 1 } := by
  by_cases hl : p.2 = 1 <;> simp [aucStep, h, hl]

/-- Core invariant of the AUC sweep: the FP/TP counters count the labels
seen so far, the recorded previous point never exceeds the current one,
and the accumulated area stays between `0` and `fpPrev * np` whenever at
most `np` active labels can ever be seen. -/
theorem aucFold_bound (np : ℕ) :
    ∀ (l : List (ℚ × ℕ)) (st : AucState),
      st.fpPrev ≤ st.fp → st.tpPrev ≤ st.tp → st.tp + onesP l ≤ np →
      0 ≤ st.area → st.area ≤ (st.fpPrev : ℚ) * np →
      (l.foldl aucStep st).fpPrev ≤ (l.foldl aucStep st).fp ∧
      (l.foldl aucStep st).tpPrev ≤ (l.foldl aucStep st).tp ∧
      (l.foldl aucStep st).tp = st.tp + onesP l ∧
      (l.foldl aucStep st).fp = st.fp + zerosP l ∧
      0 ≤ (l.foldl aucStep st).area ∧
      (l.foldl aucStep st).area ≤ ((l.foldl aucStep st).fpPrev : ℚ) * np := by
  intro l
  induction l with
  | nil =>
    intro st h1 h2 h3 h4 h5
    simp only [List.foldl_nil]
    exact ⟨h1, h2, by simp [onesP], by simp [zerosP], h4, h5⟩
  | cons p t ih =>
    intro st h1 h2 h3 h4 h5
    rw [List.foldl_cons]
    have htp_le : st.tp ≤ np := by
      have := onesP_cons p t
      omega
    have honesc := onesP_cons p t
    have hzeroc := zerosP_cons p t
    by_cases htr : p.1 ≠ st.scorePrev
    · rw [aucStep_trigger st p htr]
      have harea : st.area + trapezoidArea st.fp st.fpPrev st.tp st.tpPrev ≤
          (st.fp : ℚ) * np := by
        have htrap : trapezoidArea st.fp st.fpPrev st.tp st.tpPrev ≤
            ((st.fp : ℚ) - st.fpPrev) * np := by
          rw [trapezoidArea_eq _ _ _ _ (by exact_mod_cast h1)
            (Nat.cast_nonneg _) (Nat.cast_nonneg _)]
          have hh : ((st.tp : ℚ) + st.tpPrev) / 2 ≤ np := by
            have ha : (st.tp : ℚ) ≤ np := by exact_mod_cast htp_le
            have hb : (st.tpPrev : ℚ) ≤ st.tp := by exact_mod_cast h2
            linarith
          have hbase : (0:ℚ) ≤ (st.fp : ℚ) - st.fpPrev := by
            have hc : (st.fpPrev : ℚ) ≤ st.fp := by exact_mod_cast h1
            linarith
          exact mul_le_mul_of_nonneg_left hh hbase
        have hexp : ((st.fp : ℚ) - st.fpPrev) * np =
            (st.fp : ℚ) * np - (st.fpPrev : ℚ) * np := by ring
        linarith
      have harea0 : (0:ℚ) ≤ st.area + trapezoidArea st.fp st.fpPrev st.tp st.tpPrev := by
        have := trapezoidArea_nonneg (st.fp : ℚ) st.fpPrev st.tp st.tpPrev
        linarith
      by_cases hl : p.2 = 1
      · have hone1 : onesP (p :: t) = onesP t + 1 := by rw [honesc, if_pos hl]
        have hzero1 : zerosP (p :: t) = zerosP t := by rw [hzeroc, if_pos hl]; omega
        rw [if_pos hl]
        have := ih ⟨st.fp, st.tp + 1, st.fp, st.tp,
          st.area + trapezoidArea st.fp st.fpPrev st.tp st.tpPrev, p.1⟩
          (le_refl _) (Nat.le_succ _) (by simp only; omega) harea0 (by simpa using harea)
        simp only at this
        refine ⟨this.1, this.2.1, ?_, ?_, this.2.2.2.2.1, this.2.2.2.2.2⟩
        · rw [this.2.2.1]; omega
        · rw [this.2.2.2.1]; omega
      · have hone1 : onesP (p :: t) = onesP t := by rw [honesc, if_neg hl]; omega
        have hzero1 : zerosP (p :: t) = zerosP t + 1 := by rw [hzeroc, if_neg hl]
        rw [if_neg hl]
        have := ih ⟨st.fp + 1, st.tp, st.fp, st.tp,
          st.area + trapezoidArea st.fp st.fpPrev st.tp st.tpPrev, p.1⟩
          (Nat.le_succ _) (le_refl _) (by simp only; omega) harea0
          (by simpa using harea)
        simp only at this
        refine ⟨this.1, this.2.1, ?_, ?_, this.2.2.2.2.1, this.2.2.2.2.2⟩
        · rw [this.2.2.1]; omega
        · rw [this.2.2.2.1]; omega
    · rw [aucStep_no_trigger st p htr]
      by_cases hl : p.2 = 1
      · have hone1 : onesP (p :: t) = onesP t + 1 := by rw [honesc, if_pos hl]
        have hzero1 : zerosP (p :: t) = zerosP t := by rw [hzeroc, if_pos hl]; omega
        rw [if_pos hl]
        have := ih { st with tp := st.tp + 1 }
          h1 (by simp only; omega) (by simp only; omega) h4 h5
        simp only at this
        refine ⟨this.1, this.2.1, ?_, ?_, this.2.2.2.2.1, this.2.2.2.2.2⟩
        · rw [this.2.2.1]; omega
        · rw [this.2.2.2.1]; omega
      · have hone1 : onesP (p :: t) = onesP t := by rw [honesc, if_neg hl]; omega
        have hzero1 : zerosP (p :: t) = zerosP t + 1 := by rw [hzeroc, if_neg hl]
        rw [if_neg hl]
        have := ih { st with fp := st.fp + 1 }
          (by simp only; omega) h2 (by simp only; omega) h4 h5
        simp only at this
        refine ⟨this.1, this.2.1, ?_, ?_, this.2.2.2.2.1, this.2.2.2.2.2⟩
        · rw [this.2.2.1]; omega
        · rw [this.2.2.2.1]; omega

/-- Sweeping pairs whose score all equal the current `score_prev` changes
nothing but the counters. -/
theorem aucFold_const (c : ℚ) :
    ∀ (l : List (ℚ × ℕ)) (st : AucState), (∀ p ∈ l, p.1 = c) → st.scorePrev = c →
      (l.foldl aucStep st).area = st.area ∧
      (l.foldl aucStep st).fpPrev = st.fpPrev ∧
      (l.foldl aucStep st).tpPrev = st.tpPrev ∧
      (l.foldl aucStep st).scorePrev = c := by
  intro l
  induction l with
  | nil => intro st _ hsp; simp only [List.foldl_nil]; exact ⟨trivial, trivial, trivial, hsp⟩
  | cons p t ih =>
    intro st hall hsp
    rw [List.foldl_cons]
    have hp : p.1 = c := hall p (List.mem_cons_self p t)
    have htr : ¬ p.1 ≠ st.scorePrev := by rw [hp, hsp]; simp
    rw [aucStep_no_trigger st p htr]
    have hrest : ∀ q ∈ t, q.1 = c := fun q hq => hall q (List.mem_cons_of_mem p hq)
    by_cases hl : p.2 = 1
    · rw [if_pos hl]
      exact ih { st with tp := st.tp + 1 } hrest hsp
    · rw [if_neg hl]
      exact ih { st with fp := st.fp + 1 } hrest hsp

/-- Sweeping a block of active labels while no false positive has been
seen: FP stays 0, no area accumulates, and afterwards `score_prev` is the
initial one (with the whole block at that score) or one of the block's
scores. -/
theorem aucFold_ones :
    ∀ (l : List (ℚ × ℕ)) (st : AucState), (∀ p ∈ l, p.2 = 1) →
      st.fp = 0 → st.fpPrev = 0 → st.area = 0 →
      (l.foldl aucStep st).fp = 0 ∧
      (l.foldl aucStep st).fpPrev = 0 ∧
      (l.foldl aucStep st).area = 0 ∧
      (l.foldl aucStep st).tp = st.tp + l.length ∧
      (((l.foldl aucStep st).scorePrev = st.scorePrev ∧ ∀ p ∈ l, p.1 = st.scorePrev) ∨
        (∃ p ∈ l, (l.foldl aucStep st).scorePrev = p.1)) := by
  intro l
  induction l with
  | nil =>
    intro st _ h1 h2 h3
    refine ⟨by simpa using h1, by simpa using h2, by simpa using h3, by simp,
      Or.inl ⟨rfl, by intro p hp; cases hp⟩⟩
  | cons p t ih =>
    intro st hall h1 h2 h3
    rw [List.foldl_cons]
    have hp : p.2 = 1 := hall p (List.mem_cons_self p t)
    have hrest : ∀ q ∈ t, q.2 = 1 := fun q hq => hall q (List.mem_cons_of_mem p hq)
    by_cases htr : p.1 ≠ st.scorePrev
    · rw [aucStep_trigger st p htr, if_pos hp]
      have htrap : trapezoidArea (st.fp : ℚ) (st.fpPrev : ℚ) st.tp st.tpPrev = 0 := by
        rw [h1, h2]
        exact trapezoidArea_zero_base _ _ _
      have harea2 : st.area + trapezoidArea (st.fp : ℚ) (st.fpPrev : ℚ) st.tp st.tpPrev = 0 := by
        rw [h3, htrap, add_zero]
      have hres := ih ⟨st.fp, st.tp + 1, st.fp, st.tp,
          st.area + trapezoidArea (st.fp : ℚ) (st.fpPrev : ℚ) st.tp st.tpPrev, p.1⟩
        hrest h1 h1 harea2
      refine ⟨hres.1, hres.2.1, hres.2.2.1, ?_, ?_⟩
      · rw [hres.2.2.2.1]
        show st.tp + 1 + t.length = st.tp + (p :: t).length
        simp only [List.length_cons]
        omega
      · rcases hres.2.2.2.2 with ⟨hsp, _⟩ | ⟨q, hq, hsp⟩
        · exact Or.inr ⟨p, List.mem_cons_self p t, by simpa using hsp⟩
        · exact Or.inr ⟨q, List.mem_cons_of_mem p hq, hsp⟩
    · rw [aucStep_no_trigger st p htr, if_pos hp]
      have hres := ih { st with tp := st.tp + 1 } hrest h1 h2 h3
      refine ⟨hres.1, hres.2.1, hres.2.2.1, ?_, ?_⟩
      · rw [hres.2.2.2.1]
        show st.tp + 1 + t.length = st.tp + (p :: t).length
        simp only [List.length_cons]
        omega
      · have hpeq : p.1 = st.scorePrev := not_not.mp htr
        rcases hres.2.2.2.2 with ⟨hsp, hconst⟩ | ⟨q, hq, hsp⟩
        · refine Or.inl ⟨by simpa using hsp, ?_⟩
          intro q hq
          rcases List.mem_cons.mp hq with hq | hq
          · rw [hq]; exact hpeq
          · simpa using hconst q hq
        · exact Or.inr ⟨q, List.mem_cons_of_mem p hq, hsp⟩

/-- Sweeping a block of inactive labels once all `np` actives have been
seen and recorded: the area stays `fpPrev * np` (the rectangles of full
height merge). -/
theorem aucFold_zeros (np : ℕ) :
    ∀ (l : List (ℚ × ℕ)) (st : AucState), (∀ p ∈ l, p.2 ≠ 1) →
      st.tp = np → st.tpPrev = np → st.area = (st.fpPrev : ℚ) * np →
      st.fpPrev ≤ st.fp →
      (l.foldl aucStep st).tp = np ∧
      (l.foldl aucStep st).tpPrev = np ∧
      (l.foldl aucStep st).area = ((l.foldl aucStep st).fpPrev : ℚ) * np ∧
      (l.foldl aucStep st).fpPrev ≤ (l.foldl aucStep st).fp ∧
      (l.foldl aucStep st).fp = st.fp + l.length := by
  intro l
  induction l with
  | nil =>
    intro st _ h1 h2 h3 h4
    simp only [List.foldl_nil, List.length_nil, Nat.add_zero]
    exact ⟨h1, h2, h3, h4, trivial⟩
  | cons p t ih =>
    intro st hall h1 h2 h3 h4
    rw [List.foldl_cons]
    have hp : p.2 ≠ 1 := hall p (List.mem_cons_self p t)
    have hrest : ∀ q ∈ t, q.2 ≠ 1 := fun q hq => hall q (List.mem_cons_of_mem p hq)
    by_cases htr : p.1 ≠ st.scorePrev
    · rw [aucStep_trigger st p htr, if_neg hp]
      have htrap : trapezoidArea (st.fp : ℚ) (st.fpPrev : ℚ) st.tp st.tpPrev =
          ((st.fp : ℚ) - st.fpPrev) * np := by
        rw [trapezoidArea_eq _ _ _ _ (by exact_mod_cast h4)
          (Nat.cast_nonneg _) (Nat.cast_nonneg _), h1, h2]
        ring
      have harea2 : st.area + trapezoidArea (st.fp : ℚ) (st.fpPrev : ℚ) st.tp st.tpPrev =
          (st.fp : ℚ) * np := by
        rw [h3, htrap]
        ring
      have hres := ih ⟨st.fp + 1, st.tp, st.fp, st.tp,
          st.area + trapezoidArea (st.fp : ℚ) (st.fpPrev : ℚ) st.tp st.tpPrev, p.1⟩
        hrest h1 h1 (by simpa using harea2) (Nat.le_succ _)
      refine ⟨hres.1, hres.2.1, hres.2.2.1, hres.2.2.2.1, ?_⟩
      rw [hres.2.2.2.2]
      show st.fp + 1 + t.length = st.fp + (p :: t).length
      simp only [List.length_cons]
      omega
    · rw [aucStep_no_trigger st p htr, if_neg hp]
      have hres := ih { st with fp := st.fp + 1 } hrest h1 h2 h3 (Nat.le_succ_of_le h4)
      refine ⟨hres.1, hres.2.1, hres.2.2.1, hres.2.2.2.1, ?_⟩
      rw [hres.2.2.2.2]
      show st.fp + 1 + t.length = st.fp + (p :: t).length
      simp only [List.length_cons]
      omega

/-- Sweeping a block of inactive labels while no active has been seen:
every trapezoid has height 0, so no area accumulates. -/
theorem aucFold_zeros_first :
    ∀ (l : List (ℚ × ℕ)) (st : AucState), (∀ p ∈ l, p.2 ≠ 1) →
      st.tp = 0 → st.tpPrev = 0 → st.area = 0 →
      (l.foldl aucStep st).tp = 0 ∧
      (l.foldl aucStep st).tpPrev = 0 ∧
      (l.foldl aucStep st).area = 0 ∧
      (l.foldl aucStep st).fp = st.fp + l.length ∧
      (((l.foldl aucStep st).scorePrev = st.scorePrev ∧ ∀ p ∈ l, p.1 = st.scorePrev) ∨
        (∃ p ∈ l, (l.foldl aucStep st).scorePrev = p.1)) := by
  intro l
  induction l with
  | nil =>
    intro st _ h1 h2 h3
    refine ⟨by simpa using h1, by simpa using h2, by simpa using h3, by simp,
      Or.inl ⟨rfl, by intro p hp; cases hp⟩⟩
  | cons p t ih =>
    intro st hall h1 h2 h3
    rw [List.foldl_cons]
    have hp : p.2 ≠ 1 := hall p (List.mem_cons_self p t)
    have hrest : ∀ q ∈ t, q.2 ≠ 1 := fun q hq => hall q (List.mem_cons_of_mem p hq)
    by_cases htr : p.1 ≠ st.scorePrev
    · rw [aucStep_trigger st p htr, if_neg hp]
      have htrap : trapezoidArea (st.fp : ℚ) (st.fpPrev : ℚ) st.tp st.tpPrev = 0 := by
        rw [h1, h2]
        exact trapezoidArea_zero_height _ _
      have harea2 : st.area + trapezoidArea (st.fp : ℚ) (st.fpPrev : ℚ) st.tp st.tpPrev = 0 := by
        rw [h3, htrap, add_zero]
      have hres := ih ⟨st.fp + 1, st.tp, st.fp, st.tp,
          st.area + trapezoidArea (st.fp : ℚ) (st.fpPrev : ℚ) st.tp st.tpPrev, p.1⟩
        hrest h1 h1 harea2
      refine ⟨hres.1, hres.2.1, hres.2.2.1, ?_, ?_⟩
      · rw [hres.2.2.2.1]
        show st.fp + 1 + t.length = st.fp + (p :: t).length
        simp only [List.length_cons]
        omega
      · rcases hres.2.2.2.2 with ⟨hsp, _⟩ | ⟨q, hq, hsp⟩
        · exact Or.inr ⟨p, List.mem_cons_self p t, by simpa using hsp⟩
        · exact Or.inr ⟨q, List.mem_cons_of_mem p hq, hsp⟩
    · rw [aucStep_no_trigger st p htr, if_neg hp]
      have hres := ih { st with fp := st.fp + 1 } hrest h1 h2 h3
      refine ⟨hres.1, hres.2.1, hres.2.2.1, ?_, ?_⟩
      · rw [hres.2.2.2.1]
        show st.fp + 1 + t.length = st.fp + (p :: t).length
        simp only [List.length_cons]
        omega
      · have hpeq : p.1 = st.scorePrev := not_not.mp htr
        rcases hres.2.2.2.2 with ⟨hsp, hconst⟩ | ⟨q, hq, hsp⟩
        · refine Or.inl ⟨by simpa using hsp, ?_⟩
          intro q hq
          rcases List.mem_cons.mp hq with hq | hq
          · rw [hq]; exact hpeq
          · simpa using hconst q hq
        · exact Or.inr ⟨q, List.mem_cons_of_mem p hq, hsp⟩

/-- Sweeping a block of active labels after all false positives have been
seen and recorded: every trapezoid has base 0, so the area is unchanged. -/
theorem aucFold_ones_second (nn : ℕ) :
    ∀ (l : List (ℚ × ℕ)) (st : AucState), (∀ p ∈ l, p.2 = 1) →
      st.fp = nn → st.fpPrev = nn → st.area = 0 →
      (l.foldl aucStep st).fp = nn ∧
      (l.foldl aucStep st).fpPrev = nn ∧
      (l.foldl aucStep st).area = 0 := by
  intro l
  induction l with
  | nil =>
    intro st _ h1 h2 h3
    exact ⟨by simpa using h1, by simpa using h2, by simpa using h3⟩
  | cons p t ih =>
    intro st hall h1 h2 h3
    rw [List.foldl_cons]
    have hp : p.2 = 1 := hall p (List.mem_cons_self p t)
    have hrest : ∀ q ∈ t, q.2 = 1 := fun q hq => hall q (List.mem_cons_of_mem p hq)
    by_cases htr : p.1 ≠ st.scorePrev
    · rw [aucStep_trigger st p htr, if_pos hp]
      have htrap : trapezoidArea (st.fp : ℚ) (st.fpPrev : ℚ) st.tp st.tpPrev = 0 := by
        rw [h1, h2]
        exact trapezoidArea_zero_base _ _ _
      have harea2 : st.area + trapezoidArea (st.fp : ℚ) (st.fpPrev : ℚ) st.tp st.tpPrev = 0 := by
        rw [h3, htrap, add_zero]
      exact ih ⟨st.fp, st.tp + 1, st.fp, st.tp,
          st.area + trapezoidArea (st.fp : ℚ) (st.fpPrev : ℚ) st.tp st.tpPrev, p.1⟩
        hrest h1 h1 harea2
    · rw [aucStep_no_trigger st p htr, if_pos hp]
      exact ih { st with tp := st.tp + 1 } hrest h1 h2 h3

/-- A list in which an element satisfying `P` never follows one that
fails `P` splits into a `P`-block followed by a `¬P`-block. -/
theorem split_of_pairwise_flag {α : Type} (P : α → Prop) :
    ∀ l : List α, l.Pairwise (fun u v => P v → P u) →
      ∃ l1 l2, l = l1 ++ l2 ∧ (∀ p ∈ l1, P p) ∧ (∀ p ∈ l2, ¬ P p) := by
  intro l
  induction l with
  | nil =>
    intro _
    refine ⟨[], [], rfl, ?_, ?_⟩ <;> exact fun p hp => absurd hp (List.not_mem_nil p)
  | cons a t ih =>
    intro hpw
    have hhead := (List.pairwise_cons.mp hpw).1
    have htail := (List.pairwise_cons.mp hpw).2
    obtain ⟨l1, l2, heq, hl1, hl2⟩ := ih htail
    by_cases ha : P a
    · refine ⟨a :: l1, l2, by rw [heq]; rfl, ?_, hl2⟩
      intro p hp
      rcases List.mem_cons.mp hp with hp | hp
      · rw [hp]; exact ha
      · exact hl1 p hp
    · refine ⟨[], a :: t, rfl, fun p hp => absurd hp (List.not_mem_nil p), ?_⟩
      intro p hp
      rcases List.mem_cons.mp hp with hp | hp
      · rw [hp]; exact ha
      · intro hPp
        exact ha (hhead p hp hPp)

/-! ## Session-level AUC lemmas -/

/-- Unfolding `AUC` on a populated session. -/
theorem AUC_formula (s : Session) (hb : s.bioactivities ≠ none) :
    AUC s =
      match ndiv (((sortedPairs s).foldl aucStep aucInit).area +
          trapezoidArea (s.n_inactives : ℚ)
            ((((sortedPairs s).foldl aucStep aucInit).fpPrev : ℕ) : ℚ)
            (s.n_actives : ℚ)
            ((((sortedPairs s).foldl aucStep aucInit).tpPrev : ℕ) : ℚ))
          ((s.n_inactives : ℚ) * (s.n_actives : ℚ)) with
      | none => Except.error ScrErr.assertionError
      | some a =>
        if 0 ≤ a ∧ a ≤ 1 then Except.ok a else Except.error ScrErr.assertionError := by
  obtain ⟨labs, hl⟩ := Option.ne_none_iff_exists'.mp hb
  unfold AUC
  rw [hl]

/-- Facts shared by all AUC arguments on a well-formed session. -/
theorem wf_session_counts (s : Session) (hwf : WellFormed s) :
    s.labels.length = s.scores.length ∧
    onesP (sortedPairs s) = s.n_actives ∧
    zerosP (sortedPairs s) = s.n_inactives := by
  obtain ⟨hb, hlen, h01, hsum, hdiff, hnm⟩ := hwf
  have hlen2 : s.labels.length = s.scores.length := by
    unfold Session.scores
    rw [List.length_map]
    exact hlen
  refine ⟨hlen2, ?_, ?_⟩
  · rw [onesP_sortedPairs s hlen2, countOnes_eq_sum s.labels h01, hsum]
  · rw [zerosP_sortedPairs s hlen2, countOnes_eq_sum s.labels h01]
    have hle : s.labels.sum ≤ s.labels.length := by
      rw [← countOnes_eq_sum s.labels h01]
      exact countOnes_le_length s.labels
    omega

/-- The non-degenerate denominator. -/
theorem auc_denom_pos (s : Session) (hA : 1 ≤ s.n_actives) (hI : 1 ≤ s.n_inactives) :
    (0:ℚ) < (s.n_inactives : ℚ) * (s.n_actives : ℚ) := by
  have h1 : (0:ℚ) < (s.n_inactives : ℚ) := by exact_mod_cast hI
  have h2 : (0:ℚ) < (s.n_actives : ℚ) := by exact_mod_cast hA
  positivity

/-- AUC on a well-formed non-degenerate session succeeds with a value in
`[0, 1]` (in particular the `assert` never fires). -/
theorem AUC_interval (s : Session) (hwf : WellFormed s)
    (hA : 1 ≤ s.n_actives) (hI : 1 ≤ s.n_inactives) :
    ∃ a, AUC s = Except.ok a ∧ 0 ≤ a ∧ a ≤ 1 := by
  obtain ⟨hlen2, hones, hzeros⟩ := wf_session_counts s hwf
  have hB := aucFold_bound s.n_actives (sortedPairs s) aucInit
    (le_refl 0) (le_refl 0) (by simpa [aucInit] using le_of_eq hones)
    (le_refl 0) (by simp [aucInit])
  set F := (sortedPairs s).foldl aucStep aucInit with hF
  obtain ⟨hBfp, hBtp, hBtpv, hBfpv, hBa0, hBale⟩ := hB
  have hfp_eq : F.fp = s.n_inactives := by
    rw [hBfpv]
    simpa [aucInit] using hzeros
  have htp_eq : F.tp = s.n_actives := by
    rw [hBtpv]
    simpa [aucInit] using hones
  have hfpPrev_le : F.fpPrev ≤ s.n_inactives := hfp_eq ▸ hBfp
  have htpPrev_le : F.tpPrev ≤ s.n_actives := htp_eq ▸ hBtp
  have htrap_le : trapezoidArea (s.n_inactives : ℚ) (F.fpPrev : ℚ)
      (s.n_actives : ℚ) (F.tpPrev : ℚ) ≤
      ((s.n_inactives : ℚ) - F.fpPrev) * s.n_actives := by
    rw [trapezoidArea_eq _ _ _ _ (by exact_mod_cast hfpPrev_le)
      (Nat.cast_nonneg _) (Nat.cast_nonneg _)]
    have hh : ((s.n_actives : ℚ) + F.tpPrev) / 2 ≤ s.n_actives := by
      have hc : (F.tpPrev : ℚ) ≤ s.n_actives := by exact_mod_cast htpPrev_le
      linarith
    have hbase : (0:ℚ) ≤ (s.n_inactives : ℚ) - F.fpPrev := by
      have hc : (F.fpPrev : ℚ) ≤ s.n_inactives := by exact_mod_cast hfpPrev_le
      linarith
    exact mul_le_mul_of_nonneg_left hh hbase
  have htrap_0 := trapezoidArea_nonneg (s.n_inactives : ℚ) (F.fpPrev : ℚ)
    (s.n_actives : ℚ) (F.tpPrev : ℚ)
  have hfpPrev_bale : F.area ≤ (F.fpPrev : ℚ) * s.n_actives := hBale
  have htot_le : F.area + trapezoidArea (s.n_inactives : ℚ) (F.fpPrev : ℚ)
      (s.n_actives : ℚ) (F.tpPrev : ℚ) ≤ (s.n_inactives : ℚ) * s.n_actives := by
    have hexp : ((s.n_inactives : ℚ) - F.fpPrev) * s.n_actives =
        (s.n_inactives : ℚ) * s.n_actives - (F.fpPrev : ℚ) * s.n_actives := by ring
    linarith
  have htot_0 : (0:ℚ) ≤ F.area + trapezoidArea (s.n_inactives : ℚ) (F.fpPrev : ℚ)
      (s.n_actives : ℚ) (F.tpPrev : ℚ) := by linarith
  have hdp := auc_denom_pos s hA hI
  have hdne : ((s.n_inactives : ℚ) * (s.n_actives : ℚ)) ≠ 0 := ne_of_gt hdp
  refine ⟨(F.area + trapezoidArea (s.n_inactives : ℚ) (F.fpPrev : ℚ)
      (s.n_actives : ℚ) (F.tpPrev : ℚ)) / ((s.n_inactives : ℚ) * (s.n_actives : ℚ)),
    ?_, ?_, ?_⟩
  · rw [AUC_formula s hwf.1]
    rw [← hF]
    unfold ndiv
    rw [if_neg hdne]
    exact if_pos ⟨div_nonneg htot_0 (le_of_lt hdp), (div_le_one hdp).mpr htot_le⟩
  · exact div_nonneg htot_0 (le_of_lt hdp)
  · exact (div_le_one hdp).mpr htot_le

/-- Descending scores along the sorted pair list. -/
theorem sortedPairs_desc (s : Session) :
    (sortedPairs s).Pairwise (fun p q => q.1 ≤ p.1) := by
  unfold sortedPairs
  rw [List.pairwise_map]
  refine (sortIndices_desc s.scores).imp ?_
  rintro i j (h | ⟨h, _⟩)
  · exact le_of_lt h
  · exact le_of_eq h.symm

/-- AUC of a perfect ranking (every active scored strictly above every
inactive) is exactly 1. -/
theorem AUC_perfect (s : Session) (hwf : WellFormed s)
    (hA : 1 ≤ s.n_actives) (hI : 1 ≤ s.n_inactives)
    (hsep : ∀ p ∈ s.scores.zip s.labels, ∀ q ∈ s.scores.zip s.labels,
      p.2 = 1 → q.2 ≠ 1 → q.1 < p.1) :
    AUC s = Except.ok 1 := by
  obtain ⟨hlen2, hones, hzeros⟩ := wf_session_counts s hwf
  have hperm := sortedPairs_perm s hlen2
  have hmem : ∀ p ∈ sortedPairs s, p ∈ s.scores.zip s.labels :=
    fun p hp => hperm.mem_iff.mp hp
  have hflag : (sortedPairs s).Pairwise (fun u v => v.2 = 1 → u.2 = 1) := by
    refine (sortedPairs_desc s).imp_of_mem ?_
    intro u v hu hv hle h1v
    by_contra hu1
    exact absurd hle (not_le.mpr (hsep v (hmem v hv) u (hmem u hu) h1v hu1))
  obtain ⟨l1, l2, heq, hl1, hl2⟩ :=
    split_of_pairwise_flag (fun p : ℚ × ℕ => p.2 = 1) (sortedPairs s) hflag
  have hlen1 : l1.length = s.n_actives := by
    have h1 : onesP l1 = l1.length :=
      List.countP_eq_length.mpr (fun a ha => by simpa using hl1 a ha)
    have h2 : onesP l2 = 0 :=
      List.countP_eq_zero.mpr (fun a ha => by simpa using hl2 a ha)
    have h3 := hones
    rw [heq, onesP_append] at h3
    omega
  have hlenl2 : l2.length = s.n_inactives := by
    have h1 : zerosP l2 = l2.length :=
      List.countP_eq_length.mpr (fun a ha => by simpa using hl2 a ha)
    have h2 : zerosP l1 = 0 :=
      List.countP_eq_zero.mpr (fun a ha => by simpa using hl1 a ha)
    have h3 := hzeros
    rw [heq, show zerosP (l1 ++ l2) = zerosP l1 + zerosP l2 from by
      simp [zerosP, List.countP_append]] at h3
    omega
  rcases hl2eq : l2 with _ | ⟨q, l2'⟩
  · rw [hl2eq] at hlenl2
    simp at hlenl2
    omega
  rw [hl2eq] at heq hl2 hlenl2
  have hF1 := aucFold_ones l1 aucInit hl1 rfl rfl rfl
  obtain ⟨hF1fp, hF1fpv, hF1area, hF1tp, hF1sp⟩ := hF1
  have hF1tp' : (l1.foldl aucStep aucInit).tp = s.n_actives := by
    rw [hF1tp]
    simpa [aucInit] using hlen1
  have hq2 : q.2 ≠ 1 := hl2 q (List.mem_cons_self q l2')
  have hqmem : q ∈ sortedPairs s := by
    rw [heq]
    exact List.mem_append_right _ (List.mem_cons_self _ _)
  have htrig : q.1 ≠ (l1.foldl aucStep aucInit).scorePrev := by
    have hqlt : ∀ p0 ∈ l1, q.1 < p0.1 := by
      intro p0 hp0
      exact hsep p0 (hmem _ (by rw [heq]; exact List.mem_append_left _ hp0))
        q (hmem q hqmem) (hl1 p0 hp0) hq2
    rcases hF1sp with ⟨hsp, hconst⟩ | ⟨p0, hp0, hsp⟩
    · obtain ⟨p0, hp0⟩ := List.exists_mem_of_length_pos
        (show 0 < l1.length by rw [hlen1]; omega)
      rw [hsp, ← hconst p0 hp0]
      exact ne_of_lt (hqlt p0 hp0)
    · rw [hsp]
      exact ne_of_lt (hqlt p0 hp0)
  have hstep : aucStep (l1.foldl aucStep aucInit) q =
      ⟨(l1.foldl aucStep aucInit).fp + 1, (l1.foldl aucStep aucInit).tp,
        (l1.foldl aucStep aucInit).fp, (l1.foldl aucStep aucInit).tp,
        (l1.foldl aucStep aucInit).area +
          trapezoidArea ((l1.foldl aucStep aucInit).fp : ℚ)
            ((l1.foldl aucStep aucInit).fpPrev : ℚ)
            ((l1.foldl aucStep aucInit).tp : ℚ)
            ((l1.foldl aucStep aucInit).tpPrev : ℚ), q.1⟩ := by
    rw [aucStep_trigger _ q htrig, if_neg hq2]
  have htrapz : trapezoidArea ((l1.foldl aucStep aucInit).fp : ℚ)
      ((l1.foldl aucStep aucInit).fpPrev : ℚ)
      ((l1.foldl aucStep aucInit).tp : ℚ)
      ((l1.foldl aucStep aucInit).tpPrev : ℚ) = 0 := by
    rw [hF1fp, hF1fpv]
    exact trapezoidArea_zero_base _ _ _
  have hst2 := aucFold_zeros s.n_actives l2' (aucStep (l1.foldl aucStep aucInit) q)
    (fun p hp => hl2 p (List.mem_cons_of_mem q hp))
    (by rw [hstep]; exact hF1tp')
    (by rw [hstep]; exact hF1tp')
    (by rw [hstep]
        show (l1.foldl aucStep aucInit).area + _ = _
        rw [hF1area, htrapz, hF1fp]
        simp)
    (by rw [hstep]; exact Nat.le_succ _)
  obtain ⟨hFtp, hFtpv, hFarea, hFfple, hFfp⟩ := hst2
  have hfold_all : (sortedPairs s).foldl aucStep aucInit =
      l2'.foldl aucStep (aucStep (l1.foldl aucStep aucInit) q) := by
    rw [heq, List.foldl_append, List.foldl_cons]
  have hFfp' : (l2'.foldl aucStep (aucStep (l1.foldl aucStep aucInit) q)).fp =
      s.n_inactives := by
    rw [hFfp, hstep]
    show (l1.foldl aucStep aucInit).fp + 1 + l2'.length = s.n_inactives
    rw [hF1fp]
    simp only [List.length_cons] at hlenl2
    omega
  have hfple2 : (l2'.foldl aucStep (aucStep (l1.foldl aucStep aucInit) q)).fpPrev ≤
      s.n_inactives := by
    rw [← hFfp']
    exact hFfple
  have htrap_fin : trapezoidArea (s.n_inactives : ℚ)
      ((l2'.foldl aucStep (aucStep (l1.foldl aucStep aucInit) q)).fpPrev : ℚ)
      (s.n_actives : ℚ)
      ((l2'.foldl aucStep (aucStep (l1.foldl aucStep aucInit) q)).tpPrev : ℚ) =
      ((s.n_inactives : ℚ) -
        (l2'.foldl aucStep (aucStep (l1.foldl aucStep aucInit) q)).fpPrev) *
        s.n_actives := by
    rw [trapezoidArea_eq _ _ _ _ (by exact_mod_cast hfple2)
      (Nat.cast_nonneg _) (Nat.cast_nonneg _), hFtpv]
    ring
  have hdp := auc_denom_pos s hA hI
  have hdne : ((s.n_inactives : ℚ) * (s.n_actives : ℚ)) ≠ 0 := ne_of_gt hdp
  rw [AUC_formula s hwf.1, hfold_all]
  have htot : (l2'.foldl aucStep (aucStep (l1.foldl aucStep aucInit) q)).area +
      trapezoidArea (s.n_inactives : ℚ)
        ((l2'.foldl aucStep (aucStep (l1.foldl aucStep aucInit) q)).fpPrev : ℚ)
        (s.n_actives : ℚ)
        ((l2'.foldl aucStep (aucStep (l1.foldl aucStep aucInit) q)).tpPrev : ℚ) =
      (s.n_inactives : ℚ) * (s.n_actives : ℚ) := by
    rw [hFarea, htrap_fin]
    ring
  rw [htot]
  unfold ndiv
  rw [if_neg hdne, div_self hdne]
  exact if_pos ⟨by norm_num, le_refl 1⟩

/-- AUC of an inverted ranking (every inactive scored strictly above every
active) is exactly 0. -/
theorem AUC_inverted (s : Session) (hwf : WellFormed s)
    (hA : 1 ≤ s.n_actives) (hI : 1 ≤ s.n_inactives)
    (hsep : ∀ p ∈ s.scores.zip s.labels, ∀ q ∈ s.scores.zip s.labels,
      p.2 = 1 → q.2 ≠ 1 → p.1 < q.1) :
    AUC s = Except.ok 0 := by
  obtain ⟨hlen2, hones, hzeros⟩ := wf_session_counts s hwf
  have hperm := sortedPairs_perm s hlen2
  have hmem : ∀ p ∈ sortedPairs s, p ∈ s.scores.zip s.labels :=
    fun p hp => hperm.mem_iff.mp hp
  have hflag : (sortedPairs s).Pairwise (fun u v => v.2 ≠ 1 → u.2 ≠ 1) := by
    refine (sortedPairs_desc s).imp_of_mem ?_
    intro u v hu hv hle hv1
    intro hu1
    exact absurd hle (not_le.mpr (hsep u (hmem u hu) v (hmem v hv) hu1 hv1))
  obtain ⟨l1, l2, heq, hl1, hl2⟩ :=
    split_of_pairwise_flag (fun p : ℚ × ℕ => p.2 ≠ 1) (sortedPairs s) hflag
  have hl2' : ∀ p ∈ l2, p.2 = 1 := fun p hp => not_not.mp (hl2 p hp)
  have hlen1 : l1.length = s.n_inactives := by
    have h1 : zerosP l1 = l1.length :=
      List.countP_eq_length.mpr (fun a ha => by simpa using hl1 a ha)
    have h2 : zerosP l2 = 0 :=
      List.countP_eq_zero.mpr (fun a ha => by simpa using hl2' a ha)
    have h3 := hzeros
    rw [heq, show zerosP (l1 ++ l2) = zerosP l1 + zerosP l2 from by
      simp [zerosP, List.countP_append]] at h3
    omega
  have hlenl2 : l2.length = s.n_actives := by
    have h1 : onesP l2 = l2.length :=
      List.countP_eq_length.mpr (fun a ha => by simpa using hl2' a ha)
    have h2 : onesP l1 = 0 :=
      List.countP_eq_zero.mpr (fun a ha => by simpa using hl1 a ha)
    have h3 := hones
    rw [heq, onesP_append] at h3
    omega
  rcases hl2eq : l2 with _ | ⟨q, l2''⟩
  · rw [hl2eq] at hlenl2
    simp at hlenl2
    omega
  rw [hl2eq] at heq hl2' hlenl2
  have hF1 := aucFold_zeros_first l1 aucInit hl1 rfl rfl rfl
  obtain ⟨hF1tp, hF1tpv, hF1area, hF1fp, hF1sp⟩ := hF1
  have hF1fp' : (l1.foldl aucStep aucInit).fp = s.n_inactives := by
    rw [hF1fp]
    simpa [aucInit] using hlen1
  have hq2 : q.2 = 1 := hl2' q (List.mem_cons_self q l2'')
  have hqmem : q ∈ sortedPairs s := by
    rw [heq]
    exact List.mem_append_right _ (List.mem_cons_self _ _)
  have htrig : q.1 ≠ (l1.foldl aucStep aucInit).scorePrev := by
    have hqlt : ∀ p0 ∈ l1, q.1 < p0.1 := by
      intro p0 hp0
      exact hsep q (hmem q hqmem)
        p0 (hmem _ (by rw [heq]; exact List.mem_append_left _ hp0)) hq2 (hl1 p0 hp0)
    rcases hF1sp with ⟨hsp, hconst⟩ | ⟨p0, hp0, hsp⟩
    · obtain ⟨p0, hp0⟩ := List.exists_mem_of_length_pos
        (show 0 < l1.length by rw [hlen1]; omega)
      rw [hsp, ← hconst p0 hp0]
      exact ne_of_lt (hqlt p0 hp0)
    · rw [hsp]
      exact ne_of_lt (hqlt p0 hp0)
  have hstep : aucStep (l1.foldl aucStep aucInit) q =
      ⟨(l1.foldl aucStep aucInit).fp, (l1.foldl aucStep aucInit).tp + 1,
        (l1.foldl aucStep aucInit).fp, (l1.foldl aucStep aucInit).tp,
        (l1.foldl aucStep aucInit).area +
          trapezoidArea ((l1.foldl aucStep aucInit).fp : ℚ)
            ((l1.foldl aucStep aucInit).fpPrev : ℚ)
            ((l1.foldl aucStep aucInit).tp : ℚ)
            ((l1.foldl aucStep aucInit).tpPrev : ℚ), q.1⟩ := by
    rw [aucStep_trigger _ q htrig, if_pos hq2]
  have htrapz : trapezoidArea ((l1.foldl aucStep aucInit).fp : ℚ)
      ((l1.foldl aucStep aucInit).fpPrev : ℚ)
      ((l1.foldl aucStep aucInit).tp : ℚ)
      ((l1.foldl aucStep aucInit).tpPrev : ℚ) = 0 := by
    rw [hF1tp, hF1tpv]
    exact trapezoidArea_zero_height _ _
  have hst2 := aucFold_ones_second s.n_inactives l2''
    (aucStep (l1.foldl aucStep aucInit) q)
    (fun p hp => hl2' p (List.mem_cons_of_mem q hp))
    (by rw [hstep]; exact hF1fp')
    (by rw [hstep]; exact hF1fp')
    (by rw [hstep]
        show (l1.foldl aucStep aucInit).area + _ = _
        rw [hF1area, htrapz]
        simp)
  obtain ⟨hFfp, hFfpv, hFarea⟩ := hst2
  have hfold_all : (sortedPairs s).foldl aucStep aucInit =
      l2''.foldl aucStep (aucStep (l1.foldl aucStep aucInit) q) := by
    rw [heq, List.foldl_append, List.foldl_cons]
  have htrap_fin : trapezoidArea (s.n_inactives : ℚ)
      ((l2''.foldl aucStep (aucStep (l1.foldl aucStep aucInit) q)).fpPrev : ℚ)
      (s.n_actives : ℚ)
      ((l2''.foldl aucStep (aucStep (l1.foldl aucStep aucInit) q)).tpPrev : ℚ) = 0 := by
    rw [hFfpv]
    exact trapezoidArea_zero_base _ _ _
  have hdp := auc_denom_pos s hA hI
  have hdne : ((s.n_inactives : ℚ) * (s.n_actives : ℚ)) ≠ 0 := ne_of_gt hdp
  rw [AUC_formula s hwf.1, hfold_all]
  rw [hFarea, htrap_fin, add_zero]
  unfold ndiv
  rw [if_neg hdne, zero_div]
  exact if_pos ⟨le_refl 0, by norm_num⟩

/-- AUC when every molecule has the same score is exactly 1/2. -/
theorem AUC_all_equal (s : Session) (hwf : WellFormed s)
    (hA : 1 ≤ s.n_actives) (hI : 1 ≤ s.n_inactives)
    (heqsc : ∀ p ∈ s.scores.zip s.labels, ∀ q ∈ s.scores.zip s.labels, p.1 = q.1) :
    AUC s = Except.ok (1 / 2) := by
  obtain ⟨hlen2, hones, hzeros⟩ := wf_session_counts s hwf
  have hperm := sortedPairs_perm s hlen2
  have hmem : ∀ p ∈ sortedPairs s, p ∈ s.scores.zip s.labels :=
    fun p hp => hperm.mem_iff.mp hp
  have hne : sortedPairs s ≠ [] := by
    intro h
    rw [h] at hones
    simp [onesP] at hones
    omega
  rcases hsp : sortedPairs s with _ | ⟨p, rest⟩
  · exact absurd hsp hne
  have hallc : ∀ u ∈ sortedPairs s, u.1 = p.1 := by
    intro u hu
    exact heqsc u (hmem u hu) p (hmem p (by rw [hsp]; exact List.mem_cons_self p rest))
  have hfinal : ((sortedPairs s).foldl aucStep aucInit).area = 0 ∧
      ((sortedPairs s).foldl aucStep aucInit).fpPrev = 0 ∧
      ((sortedPairs s).foldl aucStep aucInit).tpPrev = 0 := by
    by_cases hc : p.1 = aucInit.scorePrev
    · have hcst := aucFold_const aucInit.scorePrev (sortedPairs s) aucInit
        (fun u hu => (hallc u hu).trans hc) rfl
      exact ⟨hcst.1, hcst.2.1, hcst.2.2.1⟩
    · rw [hsp, List.foldl_cons]
      have htrig : p.1 ≠ aucInit.scorePrev := hc
      have hstep : aucStep aucInit p =
          if p.2 = 1 then
            ⟨0, 1, 0, 0, 0 + trapezoidArea 0 0 0 0, p.1⟩
          else
            ⟨1, 0, 0, 0, 0 + trapezoidArea 0 0 0 0, p.1⟩ := by
        rw [aucStep_trigger aucInit p htrig]
        rfl
      have hrest : ∀ u ∈ rest, u.1 = p.1 :=
        fun u hu => hallc u (by rw [hsp]; exact List.mem_cons_of_mem p hu)
      have htz : (0:ℚ) + trapezoidArea 0 0 0 0 = 0 := by
        rw [trapezoidArea_zero_base, add_zero]
      by_cases hl : p.2 = 1
      · rw [hstep, if_pos hl]
        have hcst := aucFold_const p.1 rest ⟨0, 1, 0, 0, 0 + trapezoidArea 0 0 0 0, p.1⟩
          hrest rfl
        refine ⟨?_, ?_, ?_⟩
        · rw [hcst.1]; exact htz
        · exact hcst.2.1
        · exact hcst.2.2.1
      · rw [hstep, if_neg hl]
        have hcst := aucFold_const p.1 rest ⟨1, 0, 0, 0, 0 + trapezoidArea 0 0 0 0, p.1⟩
          hrest rfl
        refine ⟨?_, ?_, ?_⟩
        · rw [hcst.1]; exact htz
        · exact hcst.2.1
        · exact hcst.2.2.1
  obtain ⟨hFa, hFfpv, hFtpv⟩ := hfinal
  have hdp := auc_denom_pos s hA hI
  have hdne : ((s.n_inactives : ℚ) * (s.n_actives : ℚ)) ≠ 0 := ne_of_gt hdp
  rw [AUC_formula s hwf.1, hFa, hFfpv, hFtpv]
  have htrap : trapezoidArea (s.n_inactives : ℚ) ((0:ℕ):ℚ) (s.n_actives : ℚ) ((0:ℕ):ℚ) =
      (s.n_inactives : ℚ) * s.n_actives / 2 := by
    rw [trapezoidArea_eq _ _ _ _ (by simp) (Nat.cast_nonneg _) (by simp)]
    push_cast
    ring
  rw [htrap, zero_add]
  unfold ndiv
  rw [if_neg hdne]
  have hval : (s.n_inactives : ℚ) * s.n_actives / 2 / ((s.n_inactives : ℚ) * s.n_actives) =
      1 / 2 := by
    field_simp
    ring
  rw [hval]
  exact if_pos ⟨by norm_num, by norm_num⟩

/-! ## Enrichment data lemmas -/

theorem enrichAux_fst (nA n : ℕ) :
    ∀ (l : List ℕ) (ii c : ℕ),
      (enrichAux nA n l ii c).1 =
        (List.range l.length).map (fun k => ((ii + k : ℕ) : ℚ) / (n : ℚ)) := by
  intro l
  induction l with
  | nil => intro ii c; rfl
  | cons b rest ih =>
    intro ii c
    show ((ii : ℚ) / (n : ℚ)) :: (enrichAux nA n rest (ii + 1) _).1 = _
    rw [ih (ii + 1)]
    have hr : List.range (b :: rest).length = 0 :: (List.range rest.length).map (· + 1) := by
      simp [List.range_succ_eq_map]
    rw [hr, List.map_cons, List.map_map]
    refine congrArg₂ _ (by norm_num) ?_
    refine List.map_congr_left ?_
    intro k _
    simp only [Function.comp]
    norm_num
    ring_nf

theorem enrichAux_snd (nA n : ℕ) :
    ∀ (l : List ℕ) (ii c : ℕ),
      (enrichAux nA n l ii c).2 =
        (List.range l.length).map
          (fun k => ndiv ((c + countOnes (l.take (k + 1)) : ℕ) : ℚ) (nA : ℚ)) := by
  intro l
  induction l with
  | nil => intro ii c; rfl
  | cons b rest ih =>
    intro ii c
    have hc' : (if b = 1 then c + 1 else c) = c + countOnes [b] := by
      by_cases hb : b = 1 <;> simp [countOnes, hb]
    show ndiv ((if b = 1 then c + 1 else c : ℕ) : ℚ) (nA : ℚ) ::
        (enrichAux nA n rest (ii + 1) (if b = 1 then c + 1 else c)).2 = _
    rw [ih (ii + 1)]
    have hr : List.range (b :: rest).length = 0 :: (List.range rest.length).map (· + 1) := by
      simp [List.range_succ_eq_map]
    rw [hr, List.map_cons, List.map_map]
    refine congrArg₂ _ ?_ ?_
    · rw [hc']
      congr 1
    · refine List.map_congr_left ?_
      intro k _
      simp only [Function.comp]
      congr 2
      have htake : (b :: rest).take (k + 1 + 1) = b :: rest.take (k + 1) := rfl
      rw [htake]
      have hcnt : countOnes (b :: rest.take (k + 1)) =
          countOnes [b] + countOnes (rest.take (k + 1)) := by
        simp [countOnes, List.countP_cons]
        omega
      rw [hcnt, hc']
      omega

/-- Closed form of `_enrichment_data` on a populated session. -/
theorem enrichmentData_eq (s : Session) (hb : s.bioactivities ≠ none) :
    enrichmentData s = Except.ok
      (0 :: (List.range (sortedLabels s).length).map
          (fun k : ℕ => (k : ℚ) / ((sortedLabels s).length : ℚ)),
       some 0 :: (List.range (sortedLabels s).length).map
          (fun k : ℕ => ndiv ((countOnes ((sortedLabels s).take (k + 1)) : ℕ) : ℚ)
            (s.n_actives : ℚ))) := by
  obtain ⟨labs, hl⟩ := Option.ne_none_iff_exists'.mp hb
  unfold enrichmentData
  rw [hl]
  show Except.ok
      (0 :: (enrichAux s.n_actives (sortedLabels s).length (sortedLabels s) 0 0).1,
       some 0 :: (enrichAux s.n_actives (sortedLabels s).length (sortedLabels s) 0 0).2) = _
  rw [enrichAux_fst, enrichAux_snd]
  refine congrArg _ (congrArg₂ _ ?_ ?_)
  · refine congrArg _ (List.map_congr_left ?_)
    intro k _
    norm_num
  · refine congrArg _ (List.map_congr_left ?_)
    intro k _
    norm_num

/-- When a list's last position holds a maximal value, the stable
ascending argsort ends at that position. -/
theorem argsortAsc_getLast_of_max (scr : List ℚ) (hne : scr ≠ [])
    (hmax : ∀ j, j < scr.length → scr.getD j 0 ≤ scr.getD (scr.length - 1) 0) :
    (argsortAsc scr).getLast? = some (scr.length - 1) := by
  have hperm := argsortAsc_perm scr
  have hsorted := argsortAsc_sorted scr
  have hlen : (argsortAsc scr).length = scr.length := by simpa using hperm.length_eq
  have hne2 : argsortAsc scr ≠ [] := by
    intro h
    rw [h] at hlen
    simp at hlen
    exact hne (List.length_eq_zero.mp hlen.symm)
  obtain ⟨L, z, hLz⟩ := (List.eq_nil_or_concat (argsortAsc scr)).resolve_left hne2
  rw [List.concat_eq_append] at hLz
  rw [hLz, List.getLast?_concat]
  congr 1
  have hzmem : z ∈ argsortAsc scr := by
    rw [hLz]
    exact List.mem_append_right _ (by simp)
  have hzlt : z < scr.length := by
    have := hperm.mem_iff.mp hzmem
    simpa using this
  by_contra hzne
  have hmem_last : (scr.length - 1) ∈ L := by
    have h1 : (scr.length - 1) ∈ argsortAsc scr := by
      rw [hperm.mem_iff]
      have : 0 < scr.length := List.length_pos.mpr hne
      simp
      omega
    rw [hLz] at h1
    rcases List.mem_append.mp h1 with h | h
    · exact h
    · simp at h
      omega
  have hrel : lexLe scr (scr.length - 1) z := by
    rw [hLz] at hsorted
    have hpa := List.pairwise_append.mp hsorted
    exact hpa.2.2 _ hmem_last z (by simp)
  rcases hrel with h | ⟨_, hle⟩
  · exact absurd h (not_lt.mpr (hmax z hzlt))
  · omega

/-! ## Confusion matrix lemmas -/

/-- One step of the confusion-matrix loop once the label lookup succeeds. -/
theorem cmLoop_cons (labels : List ℕ) (thr : ℚ) (m : MolScore) (rest : List MolScore)
    (ii : ℕ) (acc : CMatrix) (b : ℕ) (hget : labels.get? ii = some b) :
    cmLoop labels thr (m :: rest) ii acc =
      if b = 1 ∧ thr < m.score then
        cmLoop labels thr rest (ii + 1) { acc with tp := acc.tp + 1 }
      else if b = 1 ∧ m.score ≤ thr then
        cmLoop labels thr rest (ii + 1) { acc with fn := acc.fn + 1 }
      else if b = 0 ∧ thr < m.score then
        cmLoop labels thr rest (ii + 1) { acc with fp := acc.fp + 1 }
      else if b = 0 ∧ m.score ≤ thr then
        cmLoop labels thr rest (ii + 1) { acc with tn := acc.tn + 1 }
      else
        cmLoop labels thr rest (ii + 1) acc := by
  show (match labels.get? ii with
        | none => Except.error ScrErr.indexError
        | some b =>
          if b = 1 ∧ thr < m.score then
            cmLoop labels thr rest (ii + 1) { acc with tp := acc.tp + 1 }
          else if b = 1 ∧ m.score ≤ thr then
            cmLoop labels thr rest (ii + 1) { acc with fn := acc.fn + 1 }
          else if b = 0 ∧ thr < m.score then
            cmLoop labels thr rest (ii + 1) { acc with fp := acc.fp + 1 }
          else if b = 0 ∧ m.score ≤ thr then
            cmLoop labels thr rest (ii + 1) { acc with tn := acc.tn + 1 }
          else
            cmLoop labels thr rest (ii + 1) acc) = _
  rw [hget]

theorem cmLoop_eq (labels : List ℕ) (thr : ℚ) :
    ∀ (ms : List MolScore) (ii : ℕ) (acc : CMatrix),
      ii + ms.length ≤ labels.length →
      cmLoop labels thr ms ii acc = Except.ok
        ⟨acc.tp + (ms.zip (labels.drop ii)).countP
            (fun p => decide (p.2 = 1 ∧ thr < p.1.score)),
         acc.fp + (ms.zip (labels.drop ii)).countP
            (fun p => decide (p.2 = 0 ∧ thr < p.1.score)),
         acc.fn + (ms.zip (labels.drop ii)).countP
            (fun p => decide (p.2 = 1 ∧ p.1.score ≤ thr)),
         acc.tn + (ms.zip (labels.drop ii)).countP
            (fun p => decide (p.2 = 0 ∧ p.1.score ≤ thr))⟩ := by
  intro ms
  induction ms with
  | nil =>
    intro ii acc _
    simp [cmLoop]
  | cons m rest ih =>
    intro ii acc hlen
    have hii : ii < labels.length := by
      simp only [List.length_cons] at hlen
      omega
    have hget : labels.get? ii = some labels[ii] := by
      rw [List.get?_eq_getElem?, List.getElem?_eq_getElem hii]
    have hdrop : labels.drop ii = labels[ii] :: labels.drop (ii + 1) :=
      List.drop_eq_getElem_cons hii
    have hlen' : ii + 1 + rest.length ≤ labels.length := by
      simp only [List.length_cons] at hlen
      omega
    rw [cmLoop_cons labels thr m rest ii acc labels[ii] hget, hdrop, List.zip_cons_cons]
    by_cases h1 : labels[ii] = 1 ∧ thr < m.score
    · obtain ⟨hb1, hsc⟩ := h1
      have hns : ¬ m.score ≤ thr := not_le.mpr hsc
      rw [if_pos ⟨hb1, hsc⟩, ih (ii + 1) _ hlen']
      simp [List.countP_cons, hb1, hsc, hns]
      omega
    · rw [if_neg h1]
      by_cases h2 : labels[ii] = 1 ∧ m.score ≤ thr
      · obtain ⟨hb1, hsc⟩ := h2
        have hns : ¬ thr < m.score := not_lt.mpr hsc
        rw [if_pos ⟨hb1, hsc⟩, ih (ii + 1) _ hlen']
        simp [List.countP_cons, hb1, hsc, hns]
        omega
      · rw [if_neg h2]
        by_cases h3 : labels[ii] = 0 ∧ thr < m.score
        · obtain ⟨hb0, hsc⟩ := h3
          have hns : ¬ m.score ≤ thr := not_le.mpr hsc
          rw [if_pos ⟨hb0, hsc⟩, ih (ii + 1) _ hlen']
          simp [List.countP_cons, hb0, hsc, hns]
          omega
        · rw [if_neg h3]
          by_cases h4 : labels[ii] = 0 ∧ m.score ≤ thr
          · obtain ⟨hb0, hsc⟩ := h4
            have hns : ¬ thr < m.score := not_lt.mpr hsc
            rw [if_pos ⟨hb0, hsc⟩, ih (ii + 1) _ hlen']
            simp [List.countP_cons, hb0, hsc, hns]
            omega
          · rw [if_neg h4]
            have hb1 : labels[ii] ≠ 1 := by
              intro hb
              rcases lt_or_le thr m.score with hsc | hsc
              · exact h1 ⟨hb, hsc⟩
              · exact h2 ⟨hb, hsc⟩
            have hb0 : labels[ii] ≠ 0 := by
              intro hb
              rcases lt_or_le thr m.score with hsc | hsc
              · exact h3 ⟨hb, hsc⟩
              · exact h4 ⟨hb, hsc⟩
            rw [ih (ii + 1) _ hlen']
            simp [List.countP_cons, hb1, hb0]

/-- On 0/1 labels, each record falls in exactly one of the four cells. -/
theorem cm_partition (thr : ℚ) :
    ∀ l : List (MolScore × ℕ), (∀ p ∈ l, p.2 = 0 ∨ p.2 = 1) →
      l.countP (fun p => decide (p.2 = 1 ∧ thr < p.1.score)) +
      l.countP (fun p => decide (p.2 = 0 ∧ thr < p.1.score)) +
      l.countP (fun p => decide (p.2 = 1 ∧ p.1.score ≤ thr)) +
      l.countP (fun p => decide (p.2 = 0 ∧ p.1.score ≤ thr)) = l.length := by
  intro l
  induction l with
  | nil => intro _; simp
  | cons p t ih =>
    intro h
    have hp := h p (List.mem_cons_self p t)
    have ht := ih (fun q hq => h q (List.mem_cons_of_mem p hq))
    rcases hp with h0 | h1
    · rcases lt_or_le thr p.1.score with hsc | hsc
      · have hns : ¬ p.1.score ≤ thr := not_le.mpr hsc
        simp [List.countP_cons, h0, hsc, hns] at ht ⊢
        omega
      · have hns : ¬ thr < p.1.score := not_lt.mpr hsc
        simp [List.countP_cons, h0, hsc, hns] at ht ⊢
        omega
    · rcases lt_or_le thr p.1.score with hsc | hsc
      · have hns : ¬ p.1.score ≤ thr := not_le.mpr hsc
        simp [List.countP_cons, h1, hsc, hns] at ht ⊢
        omega
      · have hns : ¬ thr < p.1.score := not_lt.mpr hsc
        simp [List.countP_cons, h1, hsc, hns] at ht ⊢
        omega

/-- `confusion_matrix` on a well-formed session: the threshold gate
passes, the loop classifies by strict `score > threshold`, and the
`assert` holds. -/
theorem confusionMatrix_eq (s : Session) (hwf : WellFormed s) (threshold : Option ℚ)
    (hthr : ¬ (s.scoring_metric = .similarity ∧ threshold = none)) :
    confusionMatrix s threshold = Except.ok
      (cmSpec s (if s.scoring_metric = .ssd then 0 else threshold.getD 0)) := by
  obtain ⟨hb, hlen, h01, hsum, hdiff, hnm⟩ := hwf
  have hzlen : (s.molecules.zip s.labels).length = s.molecules.length := by
    rw [List.length_zip, hlen, Nat.min_self]
  have hzmem : ∀ p ∈ s.molecules.zip s.labels, p.2 = 0 ∨ p.2 = 1 := by
    intro p hp
    exact h01 p.2 (List.of_mem_zip hp).2
  unfold confusionMatrix
  rw [if_neg hthr]
  have hloop := cmLoop_eq s.labels
    (if s.scoring_metric = Metric.ssd then (0:ℚ) else threshold.getD 0)
    s.molecules 0 ⟨0, 0, 0, 0⟩ (by rw [hlen]; omega)
  show (match cmLoop s.labels
      (if s.scoring_metric = Metric.ssd then (0:ℚ) else threshold.getD 0)
      s.molecules 0 ⟨0, 0, 0, 0⟩ with
    | .error e => Except.error e
    | .ok m =>
      if m.tp + m.fp + m.fn + m.tn = s.n_molecules then Except.ok m
      else Except.error ScrErr.assertionError) = _
  rw [hloop]
  simp only [List.drop_zero, Nat.zero_add]
  rw [if_pos]
  · rfl
  · rw [cm_partition _ _ hzmem, hzlen, hnm]

/-! ## Alignment lemmas -/

/-- The index `minIdxAux` returns always points at a minimal value. -/
theorem minIdxAux_spec (g : ℕ → ℚ) :
    ∀ (rest : List ℚ) (i best : ℕ) (bv : ℚ),
      g best = bv → (∀ k, k < rest.length → rest.getD k 0 = g (i + k)) →
      (minIdxAux rest i best bv = best ∨
        ∃ k, k < rest.length ∧ minIdxAux rest i best bv = i + k) ∧
      g (minIdxAux rest i best bv) ≤ bv ∧
      (∀ x ∈ rest, g (minIdxAux rest i best bv) ≤ x) := by
  intro rest
  induction rest with
  | nil =>
    intro i best bv hg _
    refine ⟨Or.inl rfl, le_of_eq hg, ?_⟩
    intro x hx
    cases hx
  | cons x r ih =>
    intro i best bv hg hk
    have hx : x = g i := by
      have := hk 0 (by simp)
      simpa using this
    have hk' : ∀ k, k < r.length → r.getD k 0 = g (i + 1 + k) := by
      intro k hklt
      have := hk (k + 1) (by simp; omega)
      rw [List.getD_cons_succ] at this
      rw [this]
      congr 1
      omega
    show (minIdxAux (x :: r) i best bv = best ∨ _) ∧ _
    by_cases hlt : x < bv
    · have hstep : minIdxAux (x :: r) i best bv = minIdxAux r (i + 1) i x := by
        show (if x < bv then minIdxAux r (i + 1) i x else minIdxAux r (i + 1) best bv) = _
        rw [if_pos hlt]
      have hres := ih (i + 1) i x hx.symm hk'
      rw [hstep]
      refine ⟨?_, ?_, ?_⟩
      · rcases hres.1 with h | ⟨k, hks, hke⟩
        · exact Or.inr ⟨0, by simp, by omega⟩
        · exact Or.inr ⟨k + 1, by simp; omega, by omega⟩
      · exact le_of_lt (lt_of_le_of_lt hres.2.1 hlt)
      · intro y hy
        rcases List.mem_cons.mp hy with hy | hy
        · rw [hy]
          exact hres.2.1
        · exact hres.2.2 y hy
    · have hstep : minIdxAux (x :: r) i best bv = minIdxAux r (i + 1) best bv := by
        show (if x < bv then minIdxAux r (i + 1) i x else minIdxAux r (i + 1) best bv) = _
        rw [if_neg hlt]
      have hres := ih (i + 1) best bv hg hk'
      rw [hstep]
      refine ⟨?_, hres.2.1, ?_⟩
      · rcases hres.1 with h | ⟨k, hks, hke⟩
        · exact Or.inl h
        · exact Or.inr ⟨k + 1, by simp; omega, by omega⟩
      · intro y hy
        rcases List.mem_cons.mp hy with hy | hy
        · rw [hy]
          exact le_trans hres.2.1 (not_lt.mp hlt)
        · exact hres.2.2 y hy

/-- `min(enumerate(SSDs), key=itemgetter(1))[0]` indexes a minimum of the
list. -/
theorem minIdx_spec (l : List ℚ) (hne : l ≠ []) :
    minIdx l < l.length ∧ (∀ x ∈ l, l.getD (minIdx l) 0 ≤ x) := by
  rcases l with _ | ⟨x, r⟩
  · exact absurd rfl hne
  have hres := minIdxAux_spec (fun j => (x :: r).getD j 0) r 1 0 x
    (by simp)
    (by intro k hk
        show r.getD k 0 = (x :: r).getD (1 + k) 0
        rw [show (1 : ℕ) + k = k + 1 from by omega, List.getD_cons_succ])
  have hidx : minIdx (x :: r) = minIdxAux r 1 0 x := rfl
  constructor
  · rw [hidx]
    rcases hres.1 with h | ⟨k, hks, hke⟩
    · rw [h]
      simp
    · rw [hke]
      simp
      omega
  · intro y hy
    rw [hidx]
    rcases List.mem_cons.mp hy with hy | hy
    · rw [hy]
      have := hres.2.1
      simpa using this
    · exact hres.2.2 y hy

theorem alignOne_ok (m : MolIn) (h : outcomeOk m.outcome) :
    alignOne m = Except.ok (alignRecord m) := by
  unfold alignOne alignRecord
  rcases ho : m.outcome with _ | _ | _ | ⟨ssds, embs⟩
  · rfl
  · rfl
  · rfl
  · rw [ho] at h
    show (if ssds.isEmpty = true then Except.ok (some (⟨0, m.name, .mol m⟩ : MolScore))
          else if ssds.getD (minIdx ssds) 0 = 0 then Except.error ScrErr.zeroDivisionError
          else Except.ok (some (⟨1 / ssds.getD (minIdx ssds) 0, m.name,
            .emb (embs.getD (minIdx ssds) 0)⟩ : MolScore))) =
        Except.ok (if ssds.isEmpty = true then some (⟨0, m.name, .mol m⟩ : MolScore)
          else some (⟨1 / ssds.getD (minIdx ssds) 0, m.name,
            .emb (embs.getD (minIdx ssds) 0)⟩ : MolScore))
    by_cases he : ssds.isEmpty
    · rw [if_pos he, if_pos he]
    · rw [if_neg he, if_neg he]
      have hnz : ssds.getD (minIdx ssds) 0 ≠ 0 := by
        rcases h with h | h
        · exact absurd (by rw [h]; rfl) he
        · exact h
      rw [if_neg hnz]

theorem alignLoop_ok :
    ∀ mols : List MolIn, (∀ m ∈ mols, outcomeOk m.outcome) →
      alignLoop mols = Except.ok (mols.filterMap alignRecord) := by
  intro mols
  induction mols with
  | nil => intro _; rfl
  | cons m rest ih =>
    intro h
    have hm := alignOne_ok m (h m (List.mem_cons_self m rest))
    have hr := ih (fun q hq => h q (List.mem_cons_of_mem m hq))
    show (match alignOne m with
      | .error e => Except.error e
      | .ok none => alignLoop rest
      | .ok (some r) =>
        match alignLoop rest with
        | .error e => Except.error e
        | .ok rs => Except.ok (r :: rs)) = _
    rw [hm, hr]
    rcases hrec : alignRecord m with _ | r
    · simp [List.filterMap_cons, hrec]
    · simp [List.filterMap_cons, hrec]

/-- `_align_molecules` under the no-zero-division side condition: the
molecule counter grows by the full input length while the store gains one
record per non-skipped molecule. -/
theorem alignMolecules_ok (s : Session) (mols : List MolIn)
    (h : ∀ m ∈ mols, outcomeOk m.outcome) :
    alignMolecules s mols = Except.ok
      { s with
        n_molecules := s.n_molecules + mols.length
        molecules := s.molecules ++ mols.filterMap alignRecord } := by
  unfold alignMolecules
  rw [alignLoop_ok mols h]

/-! ## Claim theorems -/

/-- C2: on every populated, consistently paired session with at least one
active and at least one inactive, `AUC()` returns (without tripping its
assert) a value in [0, 1]; it returns exactly 1 when every active scores
strictly above every inactive, exactly 0 when every inactive scores
strictly above every active, and exactly 1/2 when all scores are equal.
The tie-collapsing sweep and the final `n_negatives * n_positives`
normalisation are the `aucStep`/`AUC` definitions themselves. -/
theorem c2_auc_properties (s : Session) (hwf : WellFormed s)
    (hA : 1 ≤ s.n_actives) (hI : 1 ≤ s.n_inactives) :
    (∃ a, AUC s = Except.ok a ∧ 0 ≤ a ∧ a ≤ 1) ∧
    ((∀ p ∈ s.scores.zip s.labels, ∀ q ∈ s.scores.zip s.labels,
        p.2 = 1 → q.2 ≠ 1 → q.1 < p.1) → AUC s = Except.ok 1) ∧
    ((∀ p ∈ s.scores.zip s.labels, ∀ q ∈ s.scores.zip s.labels,
        p.2 = 1 → q.2 ≠ 1 → p.1 < q.1) → AUC s = Except.ok 0) ∧
    ((∀ p ∈ s.scores.zip s.labels, ∀ q ∈ s.scores.zip s.labels, p.1 = q.1) →
      AUC s = Except.ok (1 / 2)) :=
  ⟨AUC_interval s hwf hA hI, AUC_perfect s hwf hA hI, AUC_inverted s hwf hA hI,
    AUC_all_equal s hwf hA hI⟩

/-- Witness for C2 at the concrete perfect session (scores [2, 1],
labels [1, 0]). -/
theorem c2_auc_properties_witness :
    (∃ a, AUC sesPerfect = Except.ok a ∧ 0 ≤ a ∧ a ≤ 1) ∧
    ((∀ p ∈ sesPerfect.scores.zip sesPerfect.labels,
        ∀ q ∈ sesPerfect.scores.zip sesPerfect.labels,
        p.2 = 1 → q.2 ≠ 1 → q.1 < p.1) → AUC sesPerfect = Except.ok 1) ∧
    ((∀ p ∈ sesPerfect.scores.zip sesPerfect.labels,
        ∀ q ∈ sesPerfect.scores.zip sesPerfect.labels,
        p.2 = 1 → q.2 ≠ 1 → p.1 < q.1) → AUC sesPerfect = Except.ok 0) ∧
    ((∀ p ∈ sesPerfect.scores.zip sesPerfect.labels,
        ∀ q ∈ sesPerfect.scores.zip sesPerfect.labels, p.1 = q.1) →
      AUC sesPerfect = Except.ok (1 / 2)) :=
  c2_auc_properties sesPerfect (by with_unfolding_all decide)
    (by with_unfolding_all decide) (by with_unfolding_all decide)

/-- C3: the claim (the confusion-matrix entries always sum to
`n_molecules`, also for SSD sessions with skipped molecules) matches the
code's own `assert`, but the code violates it: populating an SSD session
with one unembeddable molecule leaves the store empty while `n_molecules`
is 1, and `confusion_matrix` then dies on its own assertion. -/
theorem c3_skipped_molecule_breaks_assert :
    fromBioactivityData (freshSession .ssd) [⟨"m", 0, .embedRaises⟩] [1] =
      Except.ok sesSkip ∧
    sesSkip.n_molecules = 1 ∧
    sesSkip.molecules = [] ∧
    confusionMatrix sesSkip none = Except.error ScrErr.assertionError := by
  with_unfolding_all decide

/-- C4 counterexample: on two equal scores the code's descending order
(`np.argsort(scores)[::-1]`) puts the LATER record first — the claimed
stable descending order (ties in original input order) does the opposite,
and the code's order violates the claimed tie rule. -/
theorem c4_counterexample :
    sortIndices [(1:ℚ), 1] = [1, 0] ∧
    stableDescIndices [(1:ℚ), 1] = [0, 1] ∧
    ¬ (sortIndices [(1:ℚ), 1]).Pairwise (descStable [(1:ℚ), 1]) := by
  with_unfolding_all decide

/-- C4 (amended): the shared sort is a permutation of the positions,
descending in score, with tied scores in REVERSE original order; being a
pure function of the score list it is deterministic. -/
theorem c4_sort_amended (s : List ℚ) :
    (sortIndices s).Perm (List.range s.length) ∧
    (sortIndices s).Pairwise
      (fun i j => s.getD j 0 < s.getD i 0 ∨ (s.getD i 0 = s.getD j 0 ∧ j < i)) :=
  ⟨sortIndices_perm s, sortIndices_desc s⟩

/-- C5 counterexample: on an all-active session (no inactives) `AUC`
fails with `AssertionError` (the NaN produced by `area / 0` fails the
range assert) — not with the spec's `DegenerateDataError` — and the ROC
data is produced WITHOUT any error, with NaN x-coordinates. -/
theorem c5_counterexample :
    AUC sesOneActive = Except.error ScrErr.assertionError ∧
    ScrErr.assertionError ≠ ScrErr.degenerateDataError ∧
    rocData sesOneActive = Except.ok ([none, none], [some 0, some 1]) := by
  with_unfolding_all decide

/-- C5 (amended): on every populated degenerate session (no actives or no
inactives) `AUC` raises `AssertionError` via the NaN division, while the
ROC data is emitted without error and its final point carries a NaN
coordinate. -/
theorem c5_degenerate_amended (s : Session) (hb : s.bioactivities ≠ none)
    (hdeg : s.n_inactives = 0 ∨ s.n_actives = 0) :
    AUC s = Except.error ScrErr.assertionError ∧
    ∃ xs ys, rocData s = Except.ok (xs, ys) ∧
      (xs.getLast? = some none ∨ ys.getLast? = some none) := by
  have hdz : ((s.n_inactives : ℚ) * (s.n_actives : ℚ)) = 0 := by
    rcases hdeg with h | h <;> rw [h] <;> simp
  constructor
  · rw [AUC_formula s hb]
    unfold ndiv
    rw [if_pos hdz]
  · obtain ⟨labs, hl⟩ := Option.ne_none_iff_exists'.mp hb
    unfold rocData
    rw [hl]
    refine ⟨_, _, rfl, ?_⟩
    rcases hdeg with h | h
    · left
      rw [List.getLast?_concat]
      unfold ndiv
      rw [if_pos (by rw [h]; simp : ((s.n_inactives : ℕ) : ℚ) = 0)]
    · right
      rw [List.getLast?_concat]
      unfold ndiv
      rw [if_pos (by rw [h]; simp : ((s.n_actives : ℕ) : ℚ) = 0)]

/-- Witness for C5 (amended) at the concrete all-active session. -/
theorem c5_degenerate_amended_witness :
    AUC sesOneActive = Except.error ScrErr.assertionError ∧
    ∃ xs ys, rocData sesOneActive = Except.ok (xs, ys) ∧
      (xs.getLast? = some none ∨ ys.getLast? = some none) :=
  c5_degenerate_amended sesOneActive (by with_unfolding_all decide)
    (by with_unfolding_all decide)

/-- C6: `confusion_matrix` classifies record `i` as predicted-active iff
`score[i] > threshold` (strict, the `cmSpec` counts); with the
`"Similarity"` strategy and no threshold it fails with
`MissingParameters`; with the `"SSD"` strategy the threshold used is 0
regardless of any caller-supplied value. -/
theorem c6_confusion_matrix_threshold (s : Session) (hwf : WellFormed s) :
    (s.scoring_metric = .similarity →
      confusionMatrix s none = Except.error ScrErr.missingParameters) ∧
    (∀ t : Option ℚ, s.scoring_metric = .ssd →
      confusionMatrix s t = Except.ok (cmSpec s 0)) ∧
    (∀ q : ℚ, s.scoring_metric = .similarity →
      confusionMatrix s (some q) = Except.ok (cmSpec s q)) := by
  refine ⟨?_, ?_, ?_⟩
  · intro hm
    unfold confusionMatrix
    rw [if_pos ⟨hm, rfl⟩]
  · intro t hm
    have h := confusionMatrix_eq s hwf t
      (by rintro ⟨hsim, _⟩; rw [hm] at hsim; cases hsim)
    rw [h, if_pos hm]
  · intro q hm
    have h := confusionMatrix_eq s hwf (some q)
      (by rintro ⟨_, hnone⟩; cases hnone)
    rw [h, if_neg (by rw [hm]; rintro hc; cases hc)]
    rfl

/-- Witness for C6 at the concrete similarity session. -/
theorem c6_confusion_matrix_threshold_witness :
    (sesPerfect.scoring_metric = .similarity →
      confusionMatrix sesPerfect none = Except.error ScrErr.missingParameters) ∧
    (∀ t : Option ℚ, sesPerfect.scoring_metric = .ssd →
      confusionMatrix sesPerfect t = Except.ok (cmSpec sesPerfect 0)) ∧
    (∀ q : ℚ, sesPerfect.scoring_metric = .similarity →
      confusionMatrix sesPerfect (some q) = Except.ok (cmSpec sesPerfect q)) :=
  c6_confusion_matrix_threshold sesPerfect (by with_unfolding_all decide)

/-- C7: under the no-zero-SSD side condition, `_align_molecules` adds the
full input count to `n_molecules` and appends exactly `alignRecord m` per
molecule `m`: a sentinel `(0.0, name, original molecule)` record when the
match fails or when no SSD is produced, nothing at all when the embedding
step raises, and otherwise score `1/SSD` at the first minimal SSD with
that embedding as payload. -/
theorem c7_align_molecules_behavior (s : Session) (mols : List MolIn)
    (h : ∀ m ∈ mols, outcomeOk m.outcome) :
    alignMolecules s mols = Except.ok
      { s with
        n_molecules := s.n_molecules + mols.length
        molecules := s.molecules ++ mols.filterMap alignRecord } ∧
    (∀ m : MolIn, m.outcome = .noMatch → alignRecord m = some ⟨0, m.name, .mol m⟩) ∧
    (∀ m : MolIn, m.outcome = .matchFailed → alignRecord m = some ⟨0, m.name, .mol m⟩) ∧
    (∀ m : MolIn, m.outcome = .embedRaises → alignRecord m = none) ∧
    (∀ (m : MolIn) (ssds : List ℚ) (embs : List ℕ),
      m.outcome = .embedded ssds embs → ssds = [] →
      alignRecord m = some ⟨0, m.name, .mol m⟩) ∧
    (∀ (m : MolIn) (ssds : List ℚ) (embs : List ℕ),
      m.outcome = .embedded ssds embs → ssds ≠ [] →
      alignRecord m = some ⟨1 / ssds.getD (minIdx ssds) 0, m.name,
        .emb (embs.getD (minIdx ssds) 0)⟩ ∧
      minIdx ssds < ssds.length ∧
      (∀ x ∈ ssds, ssds.getD (minIdx ssds) 0 ≤ x)) := by
  refine ⟨alignMolecules_ok s mols h, ?_, ?_, ?_, ?_, ?_⟩
  · intro m hm
    unfold alignRecord
    rw [hm]
  · intro m hm
    unfold alignRecord
    rw [hm]
  · intro m hm
    unfold alignRecord
    rw [hm]
  · intro m ssds embs hm hnil
    unfold alignRecord
    rw [hm]
    subst hnil
    rfl
  · intro m ssds embs hm hnil
    have hspec := minIdx_spec ssds hnil
    refine ⟨?_, hspec.1, hspec.2⟩
    unfold alignRecord
    rw [hm]
    show (if ssds.isEmpty = true then some (⟨0, m.name, .mol m⟩ : MolScore)
          else some (⟨1 / ssds.getD (minIdx ssds) 0, m.name,
            .emb (embs.getD (minIdx ssds) 0)⟩ : MolScore)) = _
    rw [if_neg (by simpa [List.isEmpty_iff] using hnil)]

/-- Witness for C7 at one molecule of each outcome kind. -/
theorem c7_align_molecules_behavior_witness :
    alignMolecules (freshSession .ssd) wAlignMols = Except.ok
      { freshSession .ssd with
        n_molecules := (freshSession .ssd).n_molecules + wAlignMols.length
        molecules := (freshSession .ssd).molecules ++ wAlignMols.filterMap alignRecord } :=
  (c7_align_molecules_behavior (freshSession .ssd) wAlignMols
    (by with_unfolding_all decide)).1

/-- C8 counterexample: on a freshly constructed (never populated) SSD
session `confusion_matrix` succeeds and returns the zero matrix — no
error at all — while `AUC` fails with `TypeError` (subscripting the
`None` bioactivities), not with any `EmptyScreeningError`. -/
theorem c8_counterexample :
    confusionMatrix (freshSession .ssd) none = Except.ok ⟨0, 0, 0, 0⟩ ∧
    AUC (freshSession .ssd) = Except.error ScrErr.typeError ∧
    ScrErr.typeError ≠ ScrErr.emptyScreeningError := by
  with_unfolding_all decide

/-- C8 (amended): on a fresh session the ROC/AUC/enrichment operations
fail with `TypeError` from subscripting `None`, while `confusion_matrix`
never errors: it returns the all-zero matrix (after the usual threshold
gate for the similarity strategy). -/
theorem c8_unpopulated_amended :
    (∀ m : Metric,
      AUC (freshSession m) = Except.error ScrErr.typeError ∧
      rocData (freshSession m) = Except.error ScrErr.typeError ∧
      enrichmentData (freshSession m) = Except.error ScrErr.typeError ∧
      ∀ p : ℚ, 0 ≤ p → p ≤ 100 →
        enrichmentFactor (freshSession m) p = Except.error ScrErr.typeError) ∧
    (∀ t : Option ℚ, confusionMatrix (freshSession .ssd) t = Except.ok ⟨0, 0, 0, 0⟩) ∧
    confusionMatrix (freshSession .similarity) none =
      Except.error ScrErr.missingParameters ∧
    (∀ q : ℚ, confusionMatrix (freshSession .similarity) (some q) =
      Except.ok ⟨0, 0, 0, 0⟩) := by
  refine ⟨?_, ?_, ?_, ?_⟩
  · intro m
    refine ⟨rfl, rfl, rfl, ?_⟩
    intro p hp0 hp100
    unfold enrichmentFactor
    have hcond : ¬ (p < 0 ∨ 100 < p) := by
      rintro (h | h)
      · exact absurd hp0 (not_le.mpr h)
      · exact absurd hp100 (not_le.mpr h)
    rw [if_neg hcond]
    rfl
  · intro t
    unfold confusionMatrix
    rw [if_neg (by rintro ⟨hc, _⟩; cases hc)]
    rfl
  · unfold confusionMatrix
    rw [if_pos ⟨rfl, rfl⟩]
  · intro q
    unfold confusionMatrix
    rw [if_neg (by rintro ⟨_, hc⟩; cases hc)]
    rfl

/-- Witness for C8 (amended), discharging the percentage bounds at 50. -/
theorem c8_unpopulated_amended_witness :
    enrichmentFactor (freshSession .ssd) 50 = Except.error ScrErr.typeError :=
  (c8_unpopulated_amended.1 .ssd).2.2.2 50 (by norm_num) (by norm_num)

/-- C1 counterexample: a session with a single (active) molecule.  The
claim predicts the pairs (0,0) and (1,1) — the last pair screening
fraction exactly 1 — but `_enrichment_data` returns screened fractions
[0, 0] with actives fractions [0, 1]: the final screened fraction is 0,
not 1 (the loop records `ii / n`, one step behind the prefix it counts). -/
theorem c1_counterexample :
    enrichmentData sesOneActive = Except.ok ([0, 0], [some 0, some 1]) ∧
    (List.getLast? (α := ℚ) [0, 0] = some 0) ∧ ((0 : ℚ) ≠ 1) := by
  with_unfolding_all decide

/-- C1 (amended): `_enrichment_data` sorts by score descending and emits
`n + 1` pairs starting at (0, 0), but the pair recorded after the k-th
sorted molecule (k = 1..n) is `((k-1)/n, actives_in_prefix_k/n_actives)`:
the screened fraction lags the prefix by one, so the final pair has
screened fraction `(n-1)/n`, not 1, while its actives fraction is 1. -/
theorem c1_enrichment_data_amended (s : Session) (hwf : WellFormed s)
    (hA : 1 ≤ s.n_actives) (hn : 1 ≤ s.molecules.length) :
    ∃ scr act, enrichmentData s = Except.ok (scr, act) ∧
      scr.length = s.molecules.length + 1 ∧
      act.length = s.molecules.length + 1 ∧
      scr.head? = some 0 ∧
      act.head? = some (some 0) ∧
      (∀ k, k < s.molecules.length →
        scr.get? (k + 1) = some ((k : ℚ) / (s.molecules.length : ℚ)) ∧
        act.get? (k + 1) = some (some
          ((countOnes ((sortedLabels s).take (k + 1)) : ℚ) / (s.n_actives : ℚ)))) ∧
      scr.getLast? = some (((s.molecules.length : ℚ) - 1) / (s.molecules.length : ℚ)) ∧
      act.getLast? = some (some 1) := by
  have hslen : (sortedLabels s).length = s.molecules.length := by
    unfold sortedLabels
    rw [List.length_map, sortIndices_length]
    unfold Session.scores
    rw [List.length_map]
  have hnA0 : ((s.n_actives : ℕ) : ℚ) ≠ 0 := by
    have : (0:ℚ) < s.n_actives := by exact_mod_cast hA
    linarith
  have hcnt : countOnes (sortedLabels s) = s.n_actives := by
    obtain ⟨hb, hlen, h01, hsum, _, _⟩ := hwf
    have hlen2 : s.labels.length = s.scores.length := by
      unfold Session.scores
      rw [List.length_map]
      exact hlen
    unfold countOnes
    rw [(sortedLabels_perm s hlen2).countP_eq]
    rw [show (s.labels.countP fun b => decide (b = 1)) = countOnes s.labels from rfl,
      countOnes_eq_sum s.labels h01, hsum]
  have hE := enrichmentData_eq s hwf.1
  rw [hslen] at hE
  refine ⟨_, _, hE, ?_, ?_, rfl, rfl, ?_, ?_, ?_⟩
  · simp
  · simp
  · intro k hk
    constructor
    · rw [List.get?_cons_succ]
      simp [List.get?_eq_getElem?, List.getElem?_map, List.getElem?_range hk]
    · rw [List.get?_cons_succ]
      simp only [List.get?_eq_getElem?, List.getElem?_map, List.getElem?_range hk,
        Option.map_some']
      unfold ndiv
      rw [if_neg hnA0]
  · obtain ⟨m, hm⟩ : ∃ m, s.molecules.length = m + 1 := ⟨s.molecules.length - 1, by omega⟩
    rw [hm, List.range_succ, List.map_append, List.map_cons, List.map_nil,
      ← List.cons_append, List.getLast?_concat]
    have hmc : ((m : ℕ) : ℚ) = ((s.molecules.length : ℕ) : ℚ) - 1 := by
      rw [hm]
      push_cast
      ring
    rw [hmc, hm]
  · obtain ⟨m, hm⟩ : ∃ m, s.molecules.length = m + 1 := ⟨s.molecules.length - 1, by omega⟩
    rw [hm, List.range_succ, List.map_append, List.map_cons, List.map_nil,
      ← List.cons_append, List.getLast?_concat]
    have htake : (sortedLabels s).take (m + 1) = sortedLabels s := by
      rw [show m + 1 = (sortedLabels s).length from by omega, List.take_length]
    rw [htake, hcnt]
    unfold ndiv
    rw [if_neg hnA0, div_self hnA0]

/-- Witness for C1 (amended) at the two-molecule perfect session. -/
theorem c1_enrichment_data_amended_witness :
    ∃ scr act, enrichmentData sesPerfect = Except.ok (scr, act) ∧
      scr.length = sesPerfect.molecules.length + 1 ∧
      act.length = sesPerfect.molecules.length + 1 ∧
      scr.head? = some 0 ∧
      act.head? = some (some 0) ∧
      (∀ k, k < sesPerfect.molecules.length →
        scr.get? (k + 1) = some ((k : ℚ) / (sesPerfect.molecules.length : ℚ)) ∧
        act.get? (k + 1) = some (some
          ((countOnes ((sortedLabels sesPerfect).take (k + 1)) : ℚ) /
            (sesPerfect.n_actives : ℚ)))) ∧
      scr.getLast? = some (((sesPerfect.molecules.length : ℚ) - 1) /
        (sesPerfect.molecules.length : ℚ)) ∧
      act.getLast? = some (some 1) :=
  c1_enrichment_data_amended sesPerfect (by with_unfolding_all decide)
    (by with_unfolding_all decide) (by with_unfolding_all decide)

/-- C9: on every populated, consistent session with at least one active,
`enrichment_factor(100)` returns exactly 100 (the filter keeps the whole
screened-fraction list, `np.argsort(...)[-1]` lands on its last —
maximal — entry, and the actives fraction there is 1), and any percentage
outside [0, 100] fails with the range error
(`OpenPharmacophoreValueError`, the spec's `OutOfRangeError`). -/
theorem c9_enrichment_factor (s : Session) (hwf : WellFormed s)
    (hA : 1 ≤ s.n_actives) (hn : 1 ≤ s.molecules.length) :
    enrichmentFactor s 100 = Except.ok (some 100) ∧
    (∀ p : ℚ, p < 0 ∨ 100 < p →
      enrichmentFactor s p = Except.error ScrErr.valueError) := by
  constructor
  · have hslen : (sortedLabels s).length = s.molecules.length := by
      unfold sortedLabels
      rw [List.length_map, sortIndices_length]
      unfold Session.scores
      rw [List.length_map]
    have hnA0 : ((s.n_actives : ℕ) : ℚ) ≠ 0 := by
      have : (0:ℚ) < s.n_actives := by exact_mod_cast hA
      linarith
    have hcnt : countOnes (sortedLabels s) = s.n_actives := by
      obtain ⟨hb, hlen, h01, hsum, _, _⟩ := hwf
      have hlen2 : s.labels.length = s.scores.length := by
        unfold Session.scores
        rw [List.length_map]
        exact hlen
      unfold countOnes
      rw [(sortedLabels_perm s hlen2).countP_eq]
      rw [show (s.labels.countP fun b => decide (b = 1)) = countOnes s.labels from rfl,
        countOnes_eq_sum s.labels h01, hsum]
    obtain ⟨m, hm⟩ : ∃ m, s.molecules.length = m + 1 :=
      ⟨s.molecules.length - 1, by omega⟩
    have hE := enrichmentData_eq s hwf.1
    rw [hslen, hm] at hE
    have htakeEq : (sortedLabels s).take (m + 1) = sortedLabels s := by
      rw [show m + 1 = (sortedLabels s).length from by omega, List.take_length]
    unfold enrichmentFactor
    rw [if_neg (by norm_num)]
    rw [hE]
    show (match (argsortAsc
        (((0 : ℚ) :: (List.range (m + 1)).map
            (fun k : ℕ => (k : ℚ) / ((m + 1 : ℕ) : ℚ))).filter
          (fun x => decide (x ≤ (100:ℚ) / 100)))).getLast? with
      | none => Except.error ScrErr.indexError
      | some i => Except.ok (omul
          ((some 0 :: (List.range (m + 1)).map
            (fun k : ℕ => ndiv ((countOnes ((sortedLabels s).take (k + 1)) : ℕ) : ℚ)
              (s.n_actives : ℚ))).getD i none) 100)) = Except.ok (some 100)
    have hmq : (0:ℚ) < ((m + 1 : ℕ) : ℚ) := by
      push_cast
      positivity
    have hgetD : ∀ j, j < m + 1 →
        ((0 : ℚ) :: (List.range (m + 1)).map
          (fun k : ℕ => (k : ℚ) / ((m + 1 : ℕ) : ℚ))).getD (j + 1) 0 =
        (j : ℚ) / ((m + 1 : ℕ) : ℚ) := by
      intro j hj
      rw [List.getD_cons_succ, List.getD_eq_getElem?_getD, List.getElem?_map,
        List.getElem?_range hj]
      rfl
    have hfilter : (((0 : ℚ) :: (List.range (m + 1)).map
          (fun k : ℕ => (k : ℚ) / ((m + 1 : ℕ) : ℚ))).filter
        (fun x => decide (x ≤ (100:ℚ) / 100))) =
        ((0 : ℚ) :: (List.range (m + 1)).map
          (fun k : ℕ => (k : ℚ) / ((m + 1 : ℕ) : ℚ))) := by
      apply List.filter_eq_self.mpr
      intro a ha
      rcases List.mem_cons.mp ha with h | h
      · rw [h]
        norm_num
      · obtain ⟨k, hkmem, hkval⟩ := List.mem_map.mp h
        have hk : k < m + 1 := List.mem_range.mp hkmem
        rw [← hkval]
        have hle1 : (k : ℚ) / ((m + 1 : ℕ) : ℚ) ≤ 1 := by
          rw [div_le_one hmq]
          exact_mod_cast le_of_lt hk
        simpa using hle1
    rw [hfilter]
    have hscrlen : ((0 : ℚ) :: (List.range (m + 1)).map
        (fun k : ℕ => (k : ℚ) / ((m + 1 : ℕ) : ℚ))).length = (m + 1) + 1 := by
      simp
    have hlast := argsortAsc_getLast_of_max
      ((0 : ℚ) :: (List.range (m + 1)).map
        (fun k : ℕ => (k : ℚ) / ((m + 1 : ℕ) : ℚ)))
      (by simp)
      (by
        rw [hscrlen]
        intro j hj
        simp only [Nat.add_sub_cancel]
        rw [hgetD m (by omega)]
        rcases Nat.eq_zero_or_pos j with hj0 | hjpos
        · subst hj0
          show (0:ℚ) ≤ _
          positivity
        · obtain ⟨j', hj'⟩ : ∃ j', j = j' + 1 := ⟨j - 1, by omega⟩
          subst hj'
          rw [hgetD j' (by omega)]
          gcongr
          exact_mod_cast Nat.cast_le.mpr (by omega))
    rw [hscrlen, Nat.add_sub_cancel] at hlast
    rw [hlast]
    show Except.ok (omul ((some 0 :: (List.range (m + 1)).map
        (fun k : ℕ => ndiv ((countOnes ((sortedLabels s).take (k + 1)) : ℕ) : ℚ)
          (s.n_actives : ℚ))).getD (m + 1) none) 100) = Except.ok (some 100)
    have hact : ((some 0 : Option ℚ) :: (List.range (m + 1)).map
        (fun k : ℕ => ndiv ((countOnes ((sortedLabels s).take (k + 1)) : ℕ) : ℚ)
          (s.n_actives : ℚ))).getD (m + 1) none = some 1 := by
      rw [List.getD_cons_succ, List.getD_eq_getElem?_getD, List.getElem?_map,
        List.getElem?_range (show m < m + 1 from by omega)]
      show ndiv ((countOnes ((sortedLabels s).take (m + 1)) : ℕ) : ℚ)
          (s.n_actives : ℚ) = some 1
      rw [htakeEq, hcnt]
      unfold ndiv
      rw [if_neg hnA0, div_self hnA0]
    rw [hact]
    show Except.ok (Option.map (fun v => v * 100) (some 1)) = Except.ok (some 100)
    rw [Option.map_some']
    norm_num
  · intro p hp
    unfold enrichmentFactor
    rw [if_pos hp]

/-- Witness for C9 at the two-molecule perfect session. -/
theorem c9_enrichment_factor_witness :
    enrichmentFactor sesPerfect 100 = Except.ok (some 100) ∧
    (∀ p : ℚ, p < 0 ∨ 100 < p →
      enrichmentFactor sesPerfect p = Except.error ScrErr.valueError) :=
  c9_enrichment_factor sesPerfect (by with_unfolding_all decide)
    (by with_unfolding_all decide) (by with_unfolding_all decide)

/-- Bookkeeping of a successful `_align_molecules` call. -/
theorem alignMolecules_fields (s : Session) (mols : List MolIn) (s' : Session)
    (h : alignMolecules s mols = Except.ok s') :
    s'.n_molecules = s.n_molecules + mols.length ∧
    s'.scoring_metric = s.scoring_metric := by
  unfold alignMolecules at h
  rcases hal : alignLoop mols with e | recs <;> rw [hal] at h
  · cases h
  · injection h with hrec
    subst hrec
    exact ⟨rfl, rfl⟩

/-- Bookkeeping of a successful `from_bioactivity_data` call on an SSD
session: `n_molecules` is INCREMENTED by the input length. -/
theorem fromBioactivityData_ssd_fields (s : Session) (mols : List MolIn)
    (act : List ℕ) (s' : Session) (hm : s.scoring_metric = .ssd)
    (h : fromBioactivityData s mols act = Except.ok s') :
    s'.n_molecules = s.n_molecules + mols.length ∧
    s'.scoring_metric = .ssd := by
  unfold fromBioactivityData at h
  by_cases hl : mols.length ≠ act.length
  · rw [if_pos hl] at h
    cases h
  · rw [if_neg hl, hm] at h
    have h' : alignMolecules
        { scoring_metric := Metric.ssd
          n_actives := act.sum
          n_inactives := act.length - act.sum
          bioactivities := some act
          molecules := s.molecules
          n_molecules := s.n_molecules } mols = Except.ok s' := h
    have hf := alignMolecules_fields _ _ _ h'
    refine ⟨?_, ?_⟩
    · rw [hf.1]
    · rw [hf.2]

/-- C10: populating the same session twice.  With the fingerprint
strategy the store keeps accumulating records while the label array,
`n_actives`/`n_inactives` and `n_molecules` are overwritten with the
second call's data, so the store length no longer matches the label
array; with the SSD strategy `n_molecules` instead accumulates. -/
theorem c10_double_population (mols1 mols2 : List MolIn) (act1 act2 : List ℕ)
    (h1 : mols1.length = act1.length) (h2 : mols2.length = act2.length)
    (hne : mols1 ≠ []) :
    (∃ s1 s2 : Session,
      fromBioactivityData (freshSession .similarity) mols1 act1 = Except.ok s1 ∧
      fromBioactivityData s1 mols2 act2 = Except.ok s2 ∧
      s2.molecules.length = mols1.length + mols2.length ∧
      s2.bioactivities = some act2 ∧
      s2.n_actives = act2.sum ∧
      s2.n_inactives = act2.length - act2.sum ∧
      s2.n_molecules = mols2.length ∧
      s2.molecules.length ≠ s2.labels.length) ∧
    (∀ s1 s2 : Session,
      fromBioactivityData (freshSession .ssd) mols1 act1 = Except.ok s1 →
      fromBioactivityData s1 mols2 act2 = Except.ok s2 →
      s2.n_molecules = mols1.length + mols2.length) := by
  constructor
  · refine ⟨fingerprintSimilarity
        { freshSession .similarity with
          n_actives := act1.sum
          n_inactives := act1.length - act1.sum
          bioactivities := some act1 } mols1,
      fingerprintSimilarity
        { fingerprintSimilarity
            { freshSession .similarity with
              n_actives := act1.sum
              n_inactives := act1.length - act1.sum
              bioactivities := some act1 } mols1 with
          n_actives := act2.sum
          n_inactives := act2.length - act2.sum
          bioactivities := some act2 } mols2, ?_, ?_, ?_, ?_, ?_, ?_, ?_, ?_⟩
    · unfold fromBioactivityData
      rw [if_neg (not_ne_iff.mpr h1)]
      rfl
    · unfold fromBioactivityData
      rw [if_neg (not_ne_iff.mpr h2)]
      rfl
    · show ((fingerprintSimilarity _ mols1).molecules ++ _).length = _
      unfold fingerprintSimilarity freshSession
      simp
    · rfl
    · rfl
    · rfl
    · rfl
    · show ((fingerprintSimilarity _ mols1).molecules ++ _).length ≠ _
      unfold fingerprintSimilarity freshSession Session.labels
      simp only [List.length_append, List.length_map, List.nil_append, Option.getD_some]
      have hpos : 0 < mols1.length := List.length_pos.mpr hne
      omega
  · intro s1 s2 hs1 hs2
    have hf1 := fromBioactivityData_ssd_fields (freshSession .ssd) mols1 act1 s1 rfl hs1
    have hf2 := fromBioactivityData_ssd_fields s1 mols2 act2 s2 hf1.2 hs2
    rw [hf2.1, hf1.1]
    show 0 + mols1.length + mols2.length = _
    omega

/-- Witness for C10 with one molecule in the first call and two in the
second. -/
theorem c10_double_population_witness :
    (∃ s1 s2 : Session,
      fromBioactivityData (freshSession .similarity) [simMol "a" 1] [1] = Except.ok s1 ∧
      fromBioactivityData s1 [simMol "b" 2, simMol "c" 3] [0, 1] = Except.ok s2 ∧
      s2.molecules.length = [simMol "a" 1].length + [simMol "b" 2, simMol "c" 3].length ∧
      s2.bioactivities = some [0, 1] ∧
      s2.n_actives = [0, 1].sum ∧
      s2.n_inactives = [0, 1].length - [0, 1].sum ∧
      s2.n_molecules = [simMol "b" 2, simMol "c" 3].length ∧
      s2.molecules.length ≠ s2.labels.length) ∧
    (∀ s1 s2 : Session,
      fromBioactivityData (freshSession .ssd) [simMol "a" 1] [1] = Except.ok s1 →
      fromBioactivityData s1 [simMol "b" 2, simMol "c" 3] [0, 1] = Except.ok s2 →
      s2.n_molecules = [simMol "a" 1].length + [simMol "b" 2, simMol "c" 3].length) :=
  c10_double_population [simMol "a" 1] [simMol "b" 2, simMol "c" 3] [1] [0, 1]
    (by with_unfolding_all decide) (by with_unfolding_all decide)
    (by with_unfolding_all decide)
